import Mathlib

/-!
# lab_bigint: the digit-vector big integer of `lab02-bigint/solution/bigint.inc.cpp`

Shallow embedding of `class bigint` and a verification of its arithmetic.

Modelling conventions.

* `std::vector<int> digits` is a `List Int`, least-significant digit first.
* `BASE` (a `const int` declared outside the file) is a parameter of every
  operation that reads it.
* `int` arithmetic is 32-bit: every `+`, `-` on `int` operands is followed by
  `wrapInt` (two's-complement wraparound, which is what the target hardware
  does on signed overflow); `/` and `%` on `int` truncate towards zero
  (`Int.tdiv`, `Int.tmod`).
* `unsigned int` is a natural number below `2^32`.
* `std::string` is the list of its `char` values, each char given by its
  integer value (so `'0'` is `48`).
* A loop whose trip count is not fixed on entry takes a `fuel` argument, the
  number of iterations it may run, and yields `none` when the loop is still
  running after `fuel` iterations.
* Vector lengths are naturals. The only index that is not a `size_t` is
  `int i = digits.size() - 1` in `operator<`; its conversion to `int` is
  `ltStart`, so that vectors of more than `2^31` digits compare as they do in
  the source.
-/

namespace lab_bigint

/-! ## Machine integers -/

/-- Largest value of a 32-bit `int`. -/
def INT_MAX : Int := 2147483647

/-- Number of values of a 32-bit `unsigned int`. -/
def UINT_MOD : Nat := 4294967296

/-- Reduction of an integer to the 32-bit two's-complement `int` range. -/
def wrapInt (x : Int) : Int := (x + 2147483648) % 4294967296 - 2147483648

/-- Conversion `static_cast<char>(x)` to an 8-bit signed `char`. -/
def castChar (x : Int) : Int := (x + 128) % 256 - 128

/-- Conversion of an `int` to `unsigned int`. -/
def toUInt (x : Int) : Nat := (x % 4294967296).toNat

/-! ## The class and its constructors -/

/-- Class `bigint`: its only data member is the vector `digits`. -/
structure bigint where
  digits : List Int
deriving DecidableEq

/-- Loop of `bigint::trim`, on the digits listed from the back of the vector:
`while (digits.size() > 1 && digits.back() == 0) digits.pop_back();`. -/
def trimLoop : List Int → List Int
  | x :: y :: rest => if x = 0 then trimLoop (y :: rest) else x :: y :: rest
  | ds => ds

/-- Method `bigint::trim`. -/
def bigint.trim (b : bigint) : bigint := ⟨(trimLoop b.digits.reverse).reverse⟩

/-- Default constructor `bigint() : digits(1, 0)`. -/
def bigint.zero : bigint := ⟨[0]⟩

/-- Loop `while (start < str.size() && str[start] == '0') ++start;` of the string
constructor; the result is the part of `str` from index `start` on. -/
def skipZeros : List Int → List Int
  | c :: cs => if c = 48 then skipZeros cs else c :: cs
  | [] => []

/-- Loop `for (size_t i = start; i < str.size(); ++i)` of the string constructor,
on the characters from `start` on: `none` when a character fails the digit
test (the early return), else the digits pushed, in pushing order. -/
def parseLoop (BASE : Int) : List Int → List Int → Option (List Int)
  | [], digits => some digits
  | c :: cs, digits =>
    if c < 48 ∨ c ≥ wrapInt (BASE + 48) then none
    else parseLoop BASE cs (digits ++ [c - 48])

/-- Constructor `bigint(const std::string &str)`. -/
def bigint.ofString (BASE : Int) (str : List Int) : bigint :=
  if str = [] then ⟨[0]⟩
  else
    let rest := skipZeros str
    if rest = [] then ⟨[0]⟩
    else
      match parseLoop BASE rest [] with
      | none => ⟨[0]⟩
      | some digits => bigint.trim ⟨digits.reverse⟩

/-- Loop `while (value > 0)` of the unsigned constructor; `B` is `BASE` converted
to `unsigned int`, and each remainder is converted to `int` when pushed. -/
def ofUIntLoop (B : Nat) : Nat → Nat → List Int → Option (List Int)
  | 0, value, digits => if value > 0 then none else some digits
  | fuel + 1, value, digits =>
    if value > 0 then ofUIntLoop B fuel (value / B) (digits ++ [wrapInt ((value % B : Nat) : Int)])
    else some digits

/-- Constructor `bigint(unsigned int value)`. It does not call `trim`. -/
def bigint.ofUInt (BASE : Int) (fuel : Nat) (value : Nat) : Option bigint :=
  if value = 0 then some ⟨[0]⟩
  else (ofUIntLoop (toUInt BASE) fuel value []).map bigint.mk

/-! ## Comparison -/

/-- Method `operator==`: equality of the digit vectors. -/
def bigint.eq (a b : bigint) : Bool := decide (a.digits = b.digits)

/-- Method `operator!=`. -/
def bigint.ne (a b : bigint) : Bool := !(a.eq b)

/-- Loop `for (int i = digits.size() - 1; i >= 0; --i)` of `operator<`, on the
digits that the two vectors hold at the indices `i, i - 1, ..., 0`, listed in
that order. -/
def ltLoop : List Int → List Int → Bool
  | x :: xs, y :: ys => if x ≠ y then decide (x < y) else ltLoop xs ys
  | _, _ => false

/-- Initial value of `int i = digits.size() - 1` in `operator<`: the size minus
one, computed in `size_t` and converted to `int` (for the size 0 the `size_t`
value is `2^64 - 1`, which converts to `-1`). -/
def ltStart (size : Nat) : Int := wrapInt ((size : Int) - 1)

/-- Method `operator<`. When the sizes are equal, the loop starts at the index
`ltStart size`: it is skipped when that index is negative, and otherwise visits
the digits at the indices `i, i - 1, ..., 0`, the first `i + 1` digits of each
vector taken from the last of them down. -/
def bigint.lt (a b : bigint) : Bool :=
  if a.digits.length ≠ b.digits.length then decide (a.digits.length < b.digits.length)
  else if ltStart a.digits.length < 0 then false
  else ltLoop (a.digits.take ((ltStart a.digits.length).toNat + 1)).reverse
    (b.digits.take ((ltStart a.digits.length).toNat + 1)).reverse

/-- Method `operator<=`. -/
def bigint.le (a b : bigint) : Bool := a.lt b || a.eq b

/-- Method `operator>`. -/
def bigint.gt (a b : bigint) : Bool := !(a.le b)

/-- Method `operator>=`. -/
def bigint.ge (a b : bigint) : Bool := !(a.lt b)

/-! ## Conversion to a string -/

/-- Method `to_string`. -/
def bigint.to_string (a : bigint) : List Int :=
  if a.digits = [] ∨ a.digits = [0] then [48]
  else a.digits.reverse.map (fun d => castChar (wrapInt (d + 48)))

/-! ## Addition -/

/-- Variables of the loop of `operator+`. -/
structure AddState where
  i : Nat
  carry : Int
  result : List Int
deriving DecidableEq

/-- Condition `i < maxSize || carry` of the loop of `operator+`. -/
def addCond (a b : bigint) (s : AddState) : Bool :=
  decide (s.i < max a.digits.length b.digits.length) || decide (s.carry ≠ 0)

/-- One iteration of the loop of `operator+`, with the increment of `i`. -/
def addBody (BASE : Int) (a b : bigint) (s : AddState) : AddState :=
  let r0 := if s.i = s.result.length then s.result ++ [0] else s.result
  let r1 := if s.i < a.digits.length
    then r0.set s.i (wrapInt (r0.getD s.i 0 + a.digits.getD s.i 0)) else r0
  let r2 := if s.i < b.digits.length
    then r1.set s.i (wrapInt (r1.getD s.i 0 + b.digits.getD s.i 0)) else r1
  let r3 := r2.set s.i (wrapInt (r2.getD s.i 0 + s.carry))
  let carry := wrapInt (Int.tdiv (r3.getD s.i 0) BASE)
  let r4 := r3.set s.i (Int.tmod (r3.getD s.i 0) BASE)
  ⟨s.i + 1, carry, r4⟩

/-- Loop of `operator+`, run for at most `fuel` iterations. -/
def addLoop (BASE : Int) (a b : bigint) : Nat → AddState → Option AddState
  | 0, s => if addCond a b s then none else some s
  | fuel + 1, s => if addCond a b s then addLoop BASE a b fuel (addBody BASE a b s) else some s

/-- Method `operator+`. -/
def bigint.add (BASE : Int) (fuel : Nat) (a b : bigint) : Option bigint :=
  (addLoop BASE a b fuel ⟨0, 0, []⟩).map (fun s => bigint.trim ⟨s.result⟩)

/-- Method `operator+=`: the new value of the receiver. -/
def bigint.add_assign (BASE : Int) (fuel : Nat) (a b : bigint) : Option bigint :=
  bigint.add BASE fuel a b

/-! ## Subtraction -/

/-- Variables of the loop of `operator-`. -/
structure SubState where
  i : Nat
  borrow : Int
  result : List Int
deriving DecidableEq

/-- One iteration of the loop of `operator-`, with the increment of `i`. -/
def subBody (BASE : Int) (a b : bigint) (s : SubState) : SubState :=
  let sub0 := wrapInt (a.digits.getD s.i 0 - s.borrow)
  let sub1 := if s.i < b.digits.length then wrapInt (sub0 - b.digits.getD s.i 0) else sub0
  if sub1 < 0 then ⟨s.i + 1, 1, s.result ++ [wrapInt (sub1 + BASE)]⟩
  else ⟨s.i + 1, 0, s.result ++ [sub1]⟩

/-- Loop `for (size_t i = 0; i < digits.size(); ++i)` of `operator-`: the body
run `n` times. -/
def subLoop (BASE : Int) (a b : bigint) : Nat → SubState → SubState
  | 0, s => s
  | n + 1, s => subLoop BASE a b n (subBody BASE a b s)

/-- Method `operator-`. The early `return bigint(0)` is the `value == 0` branch
of the unsigned constructor, the vector `[0]`. -/
def bigint.sub (BASE : Int) (a b : bigint) : bigint :=
  if a.lt b then ⟨[0]⟩
  else bigint.trim ⟨(subLoop BASE a b a.digits.length ⟨0, 0, []⟩).result⟩

/-- Method `operator-=`: the new value of the receiver. -/
def bigint.sub_assign (BASE : Int) (a b : bigint) : bigint := bigint.sub BASE a b

/-! ## Increment and decrement -/

/-- Pre-increment `operator++()`: the new receiver, which is also the value
returned. -/
def bigint.pre_inc (BASE : Int) (fuel : Nat) (a : bigint) : Option bigint :=
  (bigint.ofUInt BASE fuel 1).bind (fun one => bigint.add_assign BASE fuel a one)

/-- Post-increment `operator++(int)`: the value returned (the copy taken before),
then the new receiver. -/
def bigint.post_inc (BASE : Int) (fuel : Nat) (a : bigint) : Option (bigint × bigint) :=
  (bigint.pre_inc BASE fuel a).map (fun r => (a, r))

/-- Pre-decrement `operator--()`: the new receiver, which is also the value
returned. -/
def bigint.pre_dec (BASE : Int) (fuel : Nat) (a : bigint) : Option bigint :=
  (bigint.ofUInt BASE fuel 1).map (fun one => bigint.sub_assign BASE a one)

/-- Post-decrement `operator--(int)`: the value returned (the copy taken before),
then the new receiver. -/
def bigint.post_dec (BASE : Int) (fuel : Nat) (a : bigint) : Option (bigint × bigint) :=
  (bigint.pre_dec BASE fuel a).map (fun r => (a, r))

/-! ## Specification vocabulary -/

/-- Numeric value of a digit list: the sum of `digit[i] * BASE^i`. -/
def value (BASE : Int) : List Int → Int
  | [] => 0
  | d :: ds => d + BASE * value BASE ds

/-- Every digit lies in `[0, BASE)`. -/
def InRange (BASE : Int) (ds : List Int) : Prop := ∀ d ∈ ds, 0 ≤ d ∧ d < BASE

/-- Canonical form: non-empty, digits in `[0, BASE)`, and no most-significant
zero digit unless the list is `[0]`. -/
def Canonical (BASE : Int) (a : bigint) : Prop :=
  a.digits ≠ [] ∧ InRange BASE a.digits ∧ (a.digits.getLast? = some 0 → a.digits = [0])

instance (BASE : Int) (ds : List Int) : Decidable (InRange BASE ds) := by
  unfold InRange; infer_instance

instance (BASE : Int) (a : bigint) : Decidable (Canonical BASE a) := by
  unfold Canonical; infer_instance

/-- Characters of an ASCII string literal, as `char` values. -/
def cstr (s : String) : List Int := s.toList.map (fun c => (c.toNat : Int))

/-- Canonical decimal string: non-empty, every character in `'0'..'9'`, and the
first character not `'0'` unless the string is exactly `"0"`. -/
def CanonicalDecimal (s : List Int) : Prop :=
  s ≠ [] ∧ (∀ c ∈ s, 48 ≤ c ∧ c ≤ 57) ∧ (s.head? = some 48 → s = [48])

instance (s : List Int) : Decidable (CanonicalDecimal s) := by
  unfold CanonicalDecimal; infer_instance

/-! ## Vectors of more than `2^31` digits -/

/-- Value stored in `result.digits[i]` before the division by `BASE`. -/
def addDigit (a b : bigint) (i : Nat) (carry : Int) : Int :=
  let x1 := if i < a.digits.length then wrapInt (0 + a.digits.getD i 0) else 0
  let x2 := if i < b.digits.length then wrapInt (x1 + b.digits.getD i 0) else x1
  wrapInt (x2 + carry)

/-- No `int` overflow in `operator+`: at every position the two digits and the
largest carry that can arrive there fit in an `int`. -/
def AddFits (a b : bigint) : Prop :=
  ∀ i : Nat, a.digits.getD i 0 + b.digits.getD i 0 + (if i = 0 then 0 else 1) ≤ INT_MAX

/-- Invariant of the loop of `operator+`. -/
structure AddInv (BASE : Int) (a b : bigint) (s : AddState) : Prop where
  len : s.result.length = s.i
  carry01 : s.carry = 0 ∨ s.carry = 1
  carry_first : s.i = 0 → s.carry = 0
  carry_last : max a.digits.length b.digits.length < s.i → s.carry = 0
  bound : s.i ≤ max a.digits.length b.digits.length + 1
  range : InRange BASE s.result
  val : value BASE s.result + s.carry * BASE ^ s.i
    = value BASE (a.digits.take s.i) + value BASE (b.digits.take s.i)

/-- Invariant of the loop of `operator-`. -/
structure SubInv (BASE : Int) (a b : bigint) (s : SubState) : Prop where
  len : s.result.length = s.i
  borrow01 : s.borrow = 0 ∨ s.borrow = 1
  range : InRange BASE s.result
  val : value BASE s.result - s.borrow * BASE ^ s.i
    = value BASE (a.digits.take s.i) - value BASE (b.digits.take s.i)

/-! ## Conversion to `unsigned int` -/

/-- Conversion `explicit operator unsigned int()`: the fold
`value = value * BASE + *it` over the digits from the back of the vector, in
`unsigned int` arithmetic (`BASE` and the digit are converted to `unsigned int`,
the product and the sum are reduced modulo `2^32`). -/
def bigint.to_uint (BASE : Int) (a : bigint) : Nat :=
  a.digits.reverse.foldl
    (fun value d => ((value * toUInt BASE) % UINT_MOD + toUInt d) % UINT_MOD) 0

/-! ## Comparison with an `unsigned int` -/

/-- Friend `operator==(const bigint &lhs, unsigned int rhs)`. -/
def bigint.eq_bigint_uint (BASE : Int) (fuel : Nat) (lhs : bigint) (rhs : Nat) : Option Bool :=
  (bigint.ofUInt BASE fuel rhs).map (fun r => lhs.eq r)

/-- Friend `operator==(unsigned int lhs, const bigint &rhs)`. -/
def bigint.eq_uint_bigint (BASE : Int) (fuel : Nat) (lhs : Nat) (rhs : bigint) : Option Bool :=
  (bigint.ofUInt BASE fuel lhs).map (fun l => l.eq rhs)

/-- Friend `operator!=(const bigint &lhs, unsigned int rhs)`. -/
def bigint.ne_bigint_uint (BASE : Int) (fuel : Nat) (lhs : bigint) (rhs : Nat) : Option Bool :=
  (bigint.eq_bigint_uint BASE fuel lhs rhs).map (fun r => !r)

/-- Friend `operator!=(unsigned int lhs, const bigint &rhs)`. -/
def bigint.ne_uint_bigint (BASE : Int) (fuel : Nat) (lhs : Nat) (rhs : bigint) : Option Bool :=
  (bigint.eq_uint_bigint BASE fuel lhs rhs).map (fun r => !r)

/-- Friend `operator<(const bigint &lhs, unsigned int rhs)`. -/
def bigint.lt_bigint_uint (BASE : Int) (fuel : Nat) (lhs : bigint) (rhs : Nat) : Option Bool :=
  (bigint.ofUInt BASE fuel rhs).map (fun r => lhs.lt r)

/-- Friend `operator<(unsigned int lhs, const bigint &rhs)`. -/
def bigint.lt_uint_bigint (BASE : Int) (fuel : Nat) (lhs : Nat) (rhs : bigint) : Option Bool :=
  (bigint.ofUInt BASE fuel lhs).map (fun l => l.lt rhs)

/-- Friend `operator<=(const bigint &lhs, unsigned int rhs)`. -/
def bigint.le_bigint_uint (BASE : Int) (fuel : Nat) (lhs : bigint) (rhs : Nat) : Option Bool :=
  (bigint.ofUInt BASE fuel rhs).map (fun r => lhs.le r)

/-- Friend `operator<=(unsigned int lhs, const bigint &rhs)`. -/
def bigint.le_uint_bigint (BASE : Int) (fuel : Nat) (lhs : Nat) (rhs : bigint) : Option Bool :=
  (bigint.ofUInt BASE fuel lhs).map (fun l => l.le rhs)

/-- Friend `operator>(const bigint &lhs, unsigned int rhs)`. -/
def bigint.gt_bigint_uint (BASE : Int) (fuel : Nat) (lhs : bigint) (rhs : Nat) : Option Bool :=
  (bigint.ofUInt BASE fuel rhs).map (fun r => lhs.gt r)

/-- Friend `operator>(unsigned int lhs, const bigint &rhs)`. -/
def bigint.gt_uint_bigint (BASE : Int) (fuel : Nat) (lhs : Nat) (rhs : bigint) : Option Bool :=
  (bigint.ofUInt BASE fuel lhs).map (fun l => l.gt rhs)

/-- Friend `operator>=(const bigint &lhs, unsigned int rhs)`. -/
def bigint.ge_bigint_uint (BASE : Int) (fuel : Nat) (lhs : bigint) (rhs : Nat) : Option Bool :=
  (bigint.ofUInt BASE fuel rhs).map (fun r => lhs.ge r)

/-- Friend `operator>=(unsigned int lhs, const bigint &rhs)`. -/
def bigint.ge_uint_bigint (BASE : Int) (fuel : Nat) (lhs : Nat) (rhs : bigint) : Option Bool :=
  (bigint.ofUInt BASE fuel lhs).map (fun l => l.ge rhs)

/-! ## Arithmetic with a plain `int` -/

/-- Friend `operator+(int lhs, const bigint &rhs)`: `bigint(lhs)` is the unsigned
constructor, so `lhs` is first converted to `unsigned int`. -/
def bigint.add_int_bigint (BASE : Int) (fuel : Nat) (lhs : Int) (rhs : bigint) : Option bigint :=
  (bigint.ofUInt BASE fuel (toUInt lhs)).bind (fun l => bigint.add BASE fuel l rhs)

/-- Friend `operator+(const bigint &lhs, int rhs)`. -/
def bigint.add_bigint_int (BASE : Int) (fuel : Nat) (lhs : bigint) (rhs : Int) : Option bigint :=
  (bigint.ofUInt BASE fuel (toUInt rhs)).bind (fun r => bigint.add BASE fuel lhs r)

/-- Friend `operator-(int lhs, const bigint &rhs)`. -/
def bigint.sub_int_bigint (BASE : Int) (fuel : Nat) (lhs : Int) (rhs : bigint) : Option bigint :=
  (bigint.ofUInt BASE fuel (toUInt lhs)).map (fun l => bigint.sub BASE l rhs)

/-- Friend `operator-(const bigint &lhs, int rhs)`. -/
def bigint.sub_bigint_int (BASE : Int) (fuel : Nat) (lhs : bigint) (rhs : Int) : Option bigint :=
  (bigint.ofUInt BASE fuel (toUInt rhs)).map (fun r => bigint.sub BASE lhs r)

/-! ## The loop of `operator+`, iteration by iteration -/

/-- State of the loop of `operator+` after at most `k` iterations: the loop of
`addLoop`, stopped after `k` iterations if it is still running. -/
def addRun (BASE : Int) (a b : bigint) : Nat → AddState → AddState
  | 0, s => s
  | k + 1, s => if addCond a b s then addRun BASE a b k (addBody BASE a b s) else s

/-- Part of the invariant of the loop of `operator+` that holds for every `int`
radix, also when a digit sum overflows. -/
structure AddBounds (a b : bigint) (s : AddState) : Prop where
  len : s.result.length = s.i
  carry_lo : -1 ≤ s.carry
  carry_hi : s.carry ≤ 1
  carry_last : max a.digits.length b.digits.length < s.i → s.carry = 0
  bound : s.i ≤ max a.digits.length b.digits.length + 1

/-! ## Machine-integer lemmas -/

theorem wrapInt_of_range {x : Int} (h0 : -2147483648 ≤ x) (h1 : x ≤ 2147483647) :
    wrapInt x = x := by
  unfold wrapInt; omega

theorem wrapInt_le_self {x : Int} (h0 : -2147483648 ≤ x) : wrapInt x ≤ x := by
  unfold wrapInt; omega

theorem castChar_of_range {x : Int} (h0 : -128 ≤ x) (h1 : x ≤ 127) : castChar x = x := by
  unfold castChar; omega

/-! ## Lists as vectors -/

theorem set_append_last (res : List Int) (x y : Int) :
    (res ++ [x]).set res.length y = res ++ [y] := by
  induction res with
  | nil => rfl
  | cons r rs ih => simp [ih]

theorem getD_append_last (res : List Int) (x d : Int) :
    (res ++ [x]).getD res.length d = x := by
  induction res with
  | nil => rfl
  | cons r rs ih => simp [ih]

/-! ## Numeric value -/

theorem value_append (BASE : Int) (l : List Int) (d : Int) :
    value BASE (l ++ [d]) = value BASE l + d * BASE ^ l.length := by
  induction l with
  | nil => simp [value]
  | cons x xs ih =>
    show x + BASE * value BASE (xs ++ [d]) = x + BASE * value BASE xs + d * BASE ^ (xs.length + 1)
    rw [ih, pow_succ]
    ring

theorem value_take_succ (BASE : Int) (l : List Int) (i : Nat) :
    value BASE (l.take (i + 1)) = value BASE (l.take i) + l.getD i 0 * BASE ^ i := by
  induction l generalizing i with
  | nil => simp [value]
  | cons x xs ih =>
    cases i with
    | zero => simp [value]
    | succ j =>
      simp only [List.take_succ_cons, value, ih j, List.getD_cons_succ, pow_succ]
      ring

theorem inRange_append {BASE : Int} {l : List Int} {d : Int}
    (hl : InRange BASE l) (h0 : 0 ≤ d) (h1 : d < BASE) : InRange BASE (l ++ [d]) := by
  intro x hx
  rcases List.mem_append.mp hx with h | h
  · exact hl x h
  · have : x = d := by simpa using h
    subst this; exact ⟨h0, h1⟩

theorem inRange_getD {BASE : Int} (hB : 0 < BASE) {l : List Int} (hl : InRange BASE l) (i : Nat) :
    0 ≤ l.getD i 0 ∧ l.getD i 0 < BASE := by
  by_cases h : i < l.length
  · rw [List.getD_eq_getElem _ _ h]
    exact hl _ (List.getElem_mem h)
  · rw [List.getD_eq_default _ _ (by omega)]
    exact ⟨le_refl _, hB⟩

theorem value_nonneg {BASE : Int} (hB : 0 < BASE) {l : List Int} (hl : InRange BASE l) :
    0 ≤ value BASE l := by
  induction l with
  | nil => simp [value]
  | cons x xs ih =>
    have hx := hl x (List.mem_cons_self _ _)
    have hxs : InRange BASE xs := fun d hd => hl d (List.mem_cons_of_mem _ hd)
    have := ih hxs
    simp only [value]
    nlinarith

theorem value_lt_pow {BASE : Int} (hB : 0 < BASE) {l : List Int} (hl : InRange BASE l) :
    value BASE l < BASE ^ l.length := by
  induction l with
  | nil => simp [value]
  | cons x xs ih =>
    have hx := hl x (List.mem_cons_self _ _)
    have hxs : InRange BASE xs := fun d hd => hl d (List.mem_cons_of_mem _ hd)
    have := ih hxs
    simp only [value, List.length_cons, pow_succ]
    nlinarith

/-! ## Addition: the loop invariant -/

theorem addBody_eq (BASE : Int) (a b : bigint) (s : AddState) (hlen : s.result.length = s.i) :
    addBody BASE a b s =
      ⟨s.i + 1, wrapInt (Int.tdiv (addDigit a b s.i s.carry) BASE),
        s.result ++ [Int.tmod (addDigit a b s.i s.carry) BASE]⟩ := by
  obtain ⟨i, carry, result⟩ := s
  simp only at hlen
  subst hlen
  unfold addBody addDigit
  by_cases ha : result.length < a.digits.length <;> by_cases hb : result.length < b.digits.length <;>
    simp [ha, hb, set_append_last, getD_append_last]

theorem addDigit_eq {BASE : Int} (hB : 2 ≤ BASE) {a b : bigint}
    (ha : InRange BASE a.digits) (hb : InRange BASE b.digits) (hfit : AddFits a b)
    (i : Nat) (carry : Int) (hc : carry = 0 ∨ carry = 1) (hc0 : i = 0 → carry = 0) :
    addDigit a b i carry = a.digits.getD i 0 + b.digits.getD i 0 + carry := by
  have hai := inRange_getD (by omega) ha i
  have hbi := inRange_getD (by omega) hb i
  have hf := hfit i
  unfold INT_MAX at hf
  have hcar : carry ≤ (if i = 0 then 0 else 1) := by
    by_cases h : i = 0
    · simp [h, hc0 h]
    · simp only [h, if_false]; rcases hc with h | h <;> omega
  have hcar0 : 0 ≤ carry := by rcases hc with h | h <;> omega
  have e1 : wrapInt (0 + a.digits.getD i 0) = a.digits.getD i 0 :=
    (wrapInt_of_range (by omega) (by omega)).trans (zero_add _)
  have e2 : wrapInt (a.digits.getD i 0 + b.digits.getD i 0)
      = a.digits.getD i 0 + b.digits.getD i 0 := wrapInt_of_range (by omega) (by omega)
  have e3 : wrapInt (a.digits.getD i 0 + b.digits.getD i 0 + carry)
      = a.digits.getD i 0 + b.digits.getD i 0 + carry := wrapInt_of_range (by omega) (by omega)
  unfold addDigit
  by_cases h1 : i < a.digits.length <;> by_cases h2 : i < b.digits.length
  · simp only [h1, h2, if_true, e1, e2, e3]
  · have h4 : b.digits.getD i 0 = 0 := List.getD_eq_default _ _ (by omega)
    rw [h4, add_zero] at e3
    simp only [h1, h2, if_true, if_false, e1, e3, h4, add_zero]
  · have h3 : a.digits.getD i 0 = 0 := List.getD_eq_default _ _ (by omega)
    rw [h3, zero_add] at e2 e3
    simp only [h1, h2, if_true, if_false, e2, e3, h3, zero_add]
  · have h3 : a.digits.getD i 0 = 0 := List.getD_eq_default _ _ (by omega)
    have h4 : b.digits.getD i 0 = 0 := List.getD_eq_default _ _ (by omega)
    rw [h3, h4, zero_add, zero_add] at e3
    simp only [h1, h2, if_false, e3, h3, h4, zero_add]

theorem addInv_init (BASE : Int) (a b : bigint) : AddInv BASE a b ⟨0, 0, []⟩ where
  len := rfl
  carry01 := Or.inl rfl
  carry_first := fun _ => rfl
  carry_last := fun h => absurd h (Nat.not_lt_zero _)
  bound := Nat.zero_le _
  range := fun d hd => absurd hd (List.not_mem_nil d)
  val := by simp [value]

theorem addCond_false_iff (a b : bigint) (s : AddState) :
    addCond a b s = false ↔ max a.digits.length b.digits.length ≤ s.i ∧ s.carry = 0 := by
  unfold addCond
  simp [Bool.or_eq_false_iff, not_lt]

theorem addInv_step {BASE : Int} (hB : 2 ≤ BASE) {a b : bigint}
    (ha : InRange BASE a.digits) (hb : InRange BASE b.digits) (hfit : AddFits a b)
    {s : AddState} (hs : AddInv BASE a b s) (hc : addCond a b s = true) :
    AddInv BASE a b (addBody BASE a b s) := by
  have hi : s.i ≤ max a.digits.length b.digits.length := by
    by_contra hcon
    have h0 := hs.carry_last (by omega)
    have : addCond a b s = false := (addCond_false_iff a b s).mpr ⟨by omega, h0⟩
    rw [this] at hc; exact Bool.noConfusion hc
  rw [addBody_eq BASE a b s hs.len,
    addDigit_eq hB ha hb hfit s.i s.carry hs.carry01 hs.carry_first]
  have hai := inRange_getD (by omega) ha s.i
  have hbi := inRange_getD (by omega) hb s.i
  have hcar : 0 ≤ s.carry ∧ s.carry ≤ 1 := by rcases hs.carry01 with h | h <;> omega
  generalize hd : a.digits.getD s.i 0 + b.digits.getD s.i 0 + s.carry = d
  have hd0 : 0 ≤ d := by omega
  have hd1 : d < 2 * BASE := by omega
  have hBpos : (0 : Int) < BASE := by omega
  rw [Int.tdiv_eq_ediv hd0 (by omega), Int.tmod_eq_emod hd0 (by omega)]
  have hq0 : 0 ≤ d / BASE := Int.ediv_nonneg hd0 (by omega)
  have hq1 : d / BASE < 2 := Int.ediv_lt_of_lt_mul hBpos hd1
  have hr0 : 0 ≤ d % BASE := Int.emod_nonneg d (by omega)
  have hr1 : d % BASE < BASE := Int.emod_lt_of_pos d hBpos
  have hdecomp : BASE * (d / BASE) + d % BASE = d := Int.ediv_add_emod d BASE
  rw [wrapInt_of_range (by omega) (by omega)]
  refine ⟨?_, ?_, ?_, ?_, ?_, ?_, ?_⟩
  · simp [hs.len]
  · show d / BASE = 0 ∨ d / BASE = 1
    omega
  · intro h; exact absurd h (Nat.succ_ne_zero _)
  · intro h
    show d / BASE = 0
    have hmax : max a.digits.length b.digits.length ≤ s.i := by
      have : max a.digits.length b.digits.length < s.i + 1 := h
      omega
    have h3 : a.digits.getD s.i 0 = 0 :=
      List.getD_eq_default _ _ (le_trans (le_max_left _ _) hmax)
    have h4 : b.digits.getD s.i 0 = 0 :=
      List.getD_eq_default _ _ (le_trans (le_max_right _ _) hmax)
    exact Int.ediv_eq_zero_of_lt hd0 (by omega)
  · show s.i + 1 ≤ _
    omega
  · exact inRange_append hs.range hr0 hr1
  · show value BASE (s.result ++ [d % BASE]) + d / BASE * BASE ^ (s.i + 1) = _
    rw [value_append, value_take_succ, value_take_succ, hs.len, pow_succ]
    have hv := hs.val
    have h2 : d % BASE * BASE ^ s.i + d / BASE * (BASE ^ s.i * BASE)
        = (BASE * (d / BASE) + d % BASE) * BASE ^ s.i := by ring
    rw [add_assoc, h2, hdecomp, ← hd]
    linear_combination hv

/-- Enough fuel: the loop of `operator+` stops, in a state that satisfies the
invariant and falsifies the loop condition. -/
theorem addLoop_spec {BASE : Int} (hB : 2 ≤ BASE) {a b : bigint}
    (ha : InRange BASE a.digits) (hb : InRange BASE b.digits) (hfit : AddFits a b) :
    ∀ (fuel : Nat) (s : AddState), AddInv BASE a b s →
      max a.digits.length b.digits.length + 1 - s.i ≤ fuel →
      ∃ s', addLoop BASE a b fuel s = some s' ∧ AddInv BASE a b s' ∧ addCond a b s' = false := by
  intro fuel
  induction fuel with
  | zero =>
    intro s hs hf
    have h0 := hs.carry_last (by omega)
    have hc : addCond a b s = false := (addCond_false_iff a b s).mpr ⟨by omega, h0⟩
    exact ⟨s, by simp [addLoop, hc], hs, hc⟩
  | succ n ih =>
    intro s hs hf
    by_cases hc : addCond a b s = true
    · have hstep := addInv_step hB ha hb hfit hs hc
      have hi : (addBody BASE a b s).i = s.i + 1 := by
        rw [addBody_eq BASE a b s hs.len]
      obtain ⟨s', h1, h2, h3⟩ := ih (addBody BASE a b s) hstep (by rw [hi]; omega)
      exact ⟨s', by simp [addLoop, hc, h1], h2, h3⟩
    · have hc' : addCond a b s = false := by simpa using hc
      exact ⟨s, by simp [addLoop, hc'], hs, hc'⟩

/-! ## Trimming -/

theorem trimLoop_decomp (r : List Int) :
    ∃ k : Nat, r = List.replicate k 0 ++ trimLoop r := by
  induction r with
  | nil => exact ⟨0, rfl⟩
  | cons x xs ih =>
    cases xs with
    | nil => exact ⟨0, rfl⟩
    | cons y rest =>
      by_cases hx : x = 0
      · obtain ⟨k, hk⟩ := ih
        refine ⟨k + 1, ?_⟩
        simp only [trimLoop, hx, if_true, List.replicate_succ, List.cons_append]
        rw [← hk]
      · exact ⟨0, by simp [trimLoop, hx]⟩

theorem trimLoop_ne_nil {r : List Int} (h : r ≠ []) : trimLoop r ≠ [] := by
  induction r with
  | nil => exact absurd rfl h
  | cons x xs ih =>
    cases xs with
    | nil => simp [trimLoop]
    | cons y rest =>
      by_cases hx : x = 0
      · simp only [trimLoop, hx, if_true]
        exact ih (List.cons_ne_nil _ _)
      · simp [trimLoop, hx]

theorem trimLoop_head (r : List Int) (h : (trimLoop r).head? = some 0) : trimLoop r = [0] := by
  induction r with
  | nil => simp [trimLoop] at h
  | cons x xs ih =>
    cases xs with
    | nil =>
      simp only [trimLoop, List.head?_cons, Option.some.injEq] at h
      simp [trimLoop, h]
    | cons y rest =>
      by_cases hx : x = 0
      · simp only [trimLoop, hx, if_true] at h ⊢
        exact ih h
      · simp only [trimLoop, hx, if_false, List.head?_cons, Option.some.injEq] at h

theorem trimLoop_id {r : List Int} (h : r.head? = some 0 → r = [0]) : trimLoop r = r := by
  cases r with
  | nil => rfl
  | cons x xs =>
    cases xs with
    | nil => rfl
    | cons y rest =>
      by_cases hx : x = 0
      · have := h (by simp [hx])
        simp at this
      · simp [trimLoop, hx]

theorem value_append_zeros (BASE : Int) (l : List Int) (k : Nat) :
    value BASE (l ++ List.replicate k 0) = value BASE l := by
  induction l with
  | nil =>
    induction k with
    | zero => rfl
    | succ n ih =>
      simp only [List.nil_append, List.replicate_succ, value] at ih ⊢
      rw [ih]; simp [value]
  | cons x xs ih =>
    show x + BASE * value BASE (xs ++ List.replicate k 0) = x + BASE * value BASE xs
    rw [ih]

theorem trim_decomp (b : bigint) :
    ∃ k : Nat, b.digits = (bigint.trim b).digits ++ List.replicate k 0 := by
  obtain ⟨k, hk⟩ := trimLoop_decomp b.digits.reverse
  refine ⟨k, ?_⟩
  have := congrArg List.reverse hk
  simpa [bigint.trim] using this

theorem value_trim (BASE : Int) (b : bigint) :
    value BASE (bigint.trim b).digits = value BASE b.digits := by
  obtain ⟨k, hk⟩ := trim_decomp b
  conv_rhs => rw [hk, value_append_zeros]

theorem inRange_trim {BASE : Int} {b : bigint} (h : InRange BASE b.digits) :
    InRange BASE (bigint.trim b).digits := by
  obtain ⟨k, hk⟩ := trim_decomp b
  intro d hd
  exact h d (by rw [hk]; exact List.mem_append_left _ hd)

theorem canonical_trim {BASE : Int} {b : bigint} (hne : b.digits ≠ [])
    (h : InRange BASE b.digits) : Canonical BASE (bigint.trim b) := by
  refine ⟨?_, inRange_trim h, ?_⟩
  · have := trimLoop_ne_nil (r := b.digits.reverse) (by simpa using hne)
    simpa [bigint.trim] using this
  · intro hl
    have : (trimLoop b.digits.reverse).head? = some 0 := by
      simpa [bigint.trim, List.getLast?_reverse] using hl
    simp [bigint.trim, trimLoop_head _ this]

theorem trim_of_canonical {BASE : Int} {b : bigint} (h : Canonical BASE b) :
    bigint.trim b = b := by
  have : trimLoop b.digits.reverse = b.digits.reverse := by
    apply trimLoop_id
    intro hh
    have := h.2.2 (by simpa [List.head?_reverse] using hh)
    simp [this]
  cases b with
  | mk ds => simp only [bigint.trim, this, List.reverse_reverse]

/-! ## Addition: the result -/

theorem addFits_of_base {BASE : Int} (hB : 2 ≤ BASE) (hB30 : BASE ≤ 1073741824) {a b : bigint}
    (ha : InRange BASE a.digits) (hb : InRange BASE b.digits) : AddFits a b := by
  intro i
  have hai := inRange_getD (by omega) ha i
  have hbi := inRange_getD (by omega) hb i
  unfold INT_MAX
  split <;> omega

/-- Functional correctness of `operator+` when no `int` overflows: with
`max(len a, len b) + 1` iterations the loop is over, and the trimmed result is
canonical and has the sum as value. -/
theorem add_spec {BASE : Int} (hB : 2 ≤ BASE) {a b : bigint}
    (ha : InRange BASE a.digits) (hb : InRange BASE b.digits) (hfit : AddFits a b)
    (hne : 0 < max a.digits.length b.digits.length)
    {fuel : Nat} (hf : max a.digits.length b.digits.length + 1 ≤ fuel) :
    ∃ r, bigint.add BASE fuel a b = some r ∧ Canonical BASE r ∧
      value BASE r.digits = value BASE a.digits + value BASE b.digits := by
  obtain ⟨s, h1, h2, h3⟩ := addLoop_spec hB ha hb hfit fuel ⟨0, 0, []⟩ (addInv_init BASE a b)
    (by simpa using hf)
  obtain ⟨hmax, hcar⟩ := (addCond_false_iff a b s).mp h3
  refine ⟨bigint.trim ⟨s.result⟩, by simp [bigint.add, h1], ?_, ?_⟩
  · apply canonical_trim
    · intro hnil
      have hl := h2.len
      rw [show s.result = [] from hnil] at hl
      simp at hl
      omega
    · exact h2.range
  · rw [value_trim]
    have hv := h2.val
    rw [hcar, zero_mul, add_zero, List.take_of_length_le (le_trans (le_max_left _ _) hmax),
      List.take_of_length_le (le_trans (le_max_right _ _) hmax)] at hv
    exact hv

theorem canonical_length_pos {BASE : Int} {a : bigint} (h : Canonical BASE a) :
    0 < a.digits.length := List.length_pos.mpr h.1

/-! ## The unsigned constructor -/

theorem toUInt_of_range {x : Int} (h0 : 0 ≤ x) (h1 : x ≤ 2147483647) : (toUInt x : Int) = x := by
  unfold toUInt
  rw [Int.toNat_of_nonneg (Int.emod_nonneg _ (by norm_num))]
  omega

theorem ofUIntLoop_spec {BASE : Int} (hB : 2 ≤ BASE) (hmax : BASE ≤ 2147483647) :
    ∀ (n fuel v : Nat) (digits : List Int), v < 2 ^ n → n ≤ fuel →
      ∃ ds, ofUIntLoop (toUInt BASE) fuel v digits = some (digits ++ ds) ∧
        value BASE ds = v ∧ InRange BASE ds ∧ ds.length ≤ n ∧
        (v = 0 → ds = []) ∧ (0 < v → ds ≠ [] ∧ ds.getLast? ≠ some 0) := by
  have hBc := toUInt_of_range (x := BASE) (by omega) hmax
  have hB2 : 2 ≤ toUInt BASE := by omega
  intro n
  induction n with
  | zero =>
    intro fuel v digits hv _
    have hv0 : v = 0 := by simpa using hv
    subst hv0
    refine ⟨[], ?_, rfl, fun d hd => absurd hd (List.not_mem_nil d), le_refl _, fun _ => rfl,
      fun h => absurd h (lt_irrefl 0)⟩
    cases fuel <;> simp [ofUIntLoop]
  | succ n ih =>
    intro fuel v digits hv hf
    obtain ⟨fuel, rfl⟩ : ∃ f, fuel = f + 1 := ⟨fuel - 1, by omega⟩
    by_cases hv0 : v = 0
    · subst hv0
      exact ⟨[], by simp [ofUIntLoop], rfl, fun d hd => absurd hd (List.not_mem_nil d),
        Nat.zero_le _, fun _ => rfl, fun h => absurd h (lt_irrefl 0)⟩
    · have hvpos : 0 < v := Nat.pos_of_ne_zero hv0
      have hdiv : v / toUInt BASE < 2 ^ n := by
        apply Nat.div_lt_of_lt_mul
        calc v < 2 ^ (n + 1) := hv
          _ = 2 * 2 ^ n := by ring
          _ ≤ toUInt BASE * 2 ^ n := Nat.mul_le_mul_right _ hB2
      have hmodlt : v % toUInt BASE < toUInt BASE := Nat.mod_lt _ (by omega)
      have hw : wrapInt ((v % toUInt BASE : Nat) : Int) = ((v % toUInt BASE : Nat) : Int) :=
        wrapInt_of_range (by omega) (by omega)
      obtain ⟨ds, h1, h2, h3, h4, h5, h6⟩ := ih fuel (v / toUInt BASE)
        (digits ++ [((v % toUInt BASE : Nat) : Int)]) hdiv (by omega)
      refine ⟨((v % toUInt BASE : Nat) : Int) :: ds, ?_, ?_, ?_, ?_, ?_, ?_⟩
      · simp only [ofUIntLoop, hvpos, if_true, hw, h1]
        simp
      · simp only [value, h2]
        have := Nat.mod_add_div v (toUInt BASE)
        have hc : ((v % toUInt BASE : Nat) : Int) + (toUInt BASE : Int) * ((v / toUInt BASE : Nat) : Int)
            = (v : Int) := by exact_mod_cast this
        rw [hBc] at hc; exact hc
      · intro d hd
        rcases List.mem_cons.mp hd with h | h
        · subst h; omega
        · exact h3 d h
      · simp only [List.length_cons]; omega
      · intro h; exact absurd h hv0
      · intro _
        refine ⟨List.cons_ne_nil _ _, ?_⟩
        by_cases hq : v / toUInt BASE = 0
        · rw [h5 hq]
          have hlt : v < toUInt BASE := by
            by_contra hcon
            have := Nat.div_pos (Nat.le_of_not_lt hcon) (by omega : 0 < toUInt BASE)
            omega
          rw [Nat.mod_eq_of_lt hlt]
          simp only [List.getLast?_singleton, ne_eq, Option.some.injEq]
          omega
        · obtain ⟨hne, hlast⟩ := h6 (Nat.pos_of_ne_zero hq)
          obtain ⟨y, ys, rfl⟩ := List.exists_cons_of_ne_nil hne
          rw [List.getLast?_cons_cons]
          exact hlast

/-- The unsigned constructor on a 32-bit value: 32 iterations are enough, the
result is canonical, has at most 32 digits, and its value is the argument. -/
theorem ofUInt_spec {BASE : Int} (hB : 2 ≤ BASE) (hmax : BASE ≤ 2147483647)
    {fuel : Nat} (hf : 32 ≤ fuel) {x : Nat} (hx : x < 4294967296) :
    ∃ a, bigint.ofUInt BASE fuel x = some a ∧ Canonical BASE a ∧
      value BASE a.digits = x ∧ a.digits.length ≤ 32 := by
  by_cases hx0 : x = 0
  · subst hx0
    refine ⟨⟨[0]⟩, by simp [bigint.ofUInt], ⟨by simp, ?_, fun _ => rfl⟩, by simp [value], by simp⟩
    intro d hd
    have : d = 0 := by simpa using hd
    subst this; omega
  · obtain ⟨ds, h1, h2, h3, h4, _, h6⟩ := ofUIntLoop_spec hB hmax 32 fuel x [] (by omega) hf
    obtain ⟨hne, hlast⟩ := h6 (Nat.pos_of_ne_zero hx0)
    refine ⟨⟨ds⟩, by simp [bigint.ofUInt, hx0, h1], ⟨hne, h3, ?_⟩, h2, h4⟩
    intro h; exact absurd h hlast

theorem ofUInt_zero (BASE : Int) (fuel : Nat) : bigint.ofUInt BASE fuel 0 = some ⟨[0]⟩ := by
  simp [bigint.ofUInt]

/-! ## Comparison and numeric order -/

theorem inRange_cons {BASE : Int} {x : Int} {xs : List Int} (h : InRange BASE (x :: xs)) :
    (0 ≤ x ∧ x < BASE) ∧ InRange BASE xs :=
  ⟨h x (List.mem_cons_self _ _), fun d hd => h d (List.mem_cons_of_mem _ hd)⟩

theorem inRange_reverse {BASE : Int} {l : List Int} (h : InRange BASE l) :
    InRange BASE l.reverse := fun d hd => h d (List.mem_reverse.mp hd)

theorem value_reverse_cons (BASE : Int) (x : Int) (xs : List Int) :
    value BASE (x :: xs).reverse = value BASE xs.reverse + x * BASE ^ xs.length := by
  rw [List.reverse_cons, value_append, List.length_reverse]

/-- On two lists of the same length with digits in range, listed from the most
significant digit, the loop of `operator<` decides the order of the values. -/
theorem ltLoop_iff {BASE : Int} (hB : 0 < BASE) :
    ∀ (r1 r2 : List Int), r1.length = r2.length → InRange BASE r1 → InRange BASE r2 →
      (ltLoop r1 r2 = true ↔ value BASE r1.reverse < value BASE r2.reverse) := by
  intro r1
  induction r1 with
  | nil =>
    intro r2 hlen _ _
    have : r2 = [] := List.length_eq_zero.mp hlen.symm
    subst this
    simp [ltLoop, value]
  | cons x xs ih =>
    intro r2 hlen h1 h2
    cases r2 with
    | nil => simp at hlen
    | cons y ys =>
      have hlen' : xs.length = ys.length := by simpa using hlen
      obtain ⟨hx, hxs⟩ := inRange_cons h1
      obtain ⟨hy, hys⟩ := inRange_cons h2
      rw [value_reverse_cons, value_reverse_cons, ← hlen']
      have hv1 := value_lt_pow hB (inRange_reverse hxs)
      have hv2 := value_lt_pow hB (inRange_reverse hys)
      have hn1 := value_nonneg hB (inRange_reverse hxs)
      have hn2 := value_nonneg hB (inRange_reverse hys)
      rw [List.length_reverse] at hv1 hv2
      rw [← hlen'] at hv2
      have hP : (0 : Int) < BASE ^ xs.length := pow_pos hB _
      by_cases hxy : x = y
      · subst hxy
        simp only [ltLoop, ne_eq, not_true_eq_false, if_false]
        rw [ih ys hlen' hxs hys]
        constructor <;> intro h <;> linarith
      · simp only [ltLoop, ne_eq, hxy, not_false_eq_true, if_true, decide_eq_true_eq]
        constructor
        · intro h
          have : (x + 1) * BASE ^ xs.length ≤ y * BASE ^ xs.length :=
            mul_le_mul_of_nonneg_right (by omega) (le_of_lt hP)
          nlinarith
        · intro h
          by_contra hcon
          have hyx : y + 1 ≤ x := by omega
          have : (y + 1) * BASE ^ xs.length ≤ x * BASE ^ xs.length :=
            mul_le_mul_of_nonneg_right hyx (le_of_lt hP)
          nlinarith

/-- A canonical list of at least two digits has a non-zero leading digit, so
its value is at least `BASE ^ (length - 1)`. -/
theorem canonical_pow_le {BASE : Int} (hB : 0 < BASE) {a : bigint} (h : Canonical BASE a)
    (hlen : 2 ≤ a.digits.length) : BASE ^ (a.digits.length - 1) ≤ value BASE a.digits := by
  obtain ⟨hne, hr, hlast⟩ := h
  obtain ⟨ds, d, hd⟩ : ∃ ds d, a.digits = ds ++ [d] :=
    ⟨a.digits.dropLast, a.digits.getLast hne, (List.dropLast_append_getLast hne).symm⟩
  rw [hd] at hlast hlen hr ⊢
  have hdr := hr d (by simp)
  have hd0 : d ≠ 0 := by
    intro h0
    have := hlast (by simp [h0])
    have hl := congrArg List.length this
    simp only [List.length_append, List.length_singleton] at hl hlen
    omega
  have hds : InRange BASE ds := fun x hx => hr x (List.mem_append_left _ hx)
  have hn := value_nonneg hB hds
  rw [value_append]
  simp only [List.length_append, List.length_singleton, Nat.add_sub_cancel]
  have hP : (0 : Int) < BASE ^ ds.length := pow_pos hB _
  have : 1 * BASE ^ ds.length ≤ d * BASE ^ ds.length :=
    mul_le_mul_of_nonneg_right (by omega) (le_of_lt hP)
  linarith

/-- A canonical bigint with fewer digits has the smaller value. -/
theorem canonical_length_lt {BASE : Int} (hB : 2 ≤ BASE) {a b : bigint}
    (ha : Canonical BASE a) (hb : Canonical BASE b) (hlen : a.digits.length < b.digits.length) :
    value BASE a.digits < value BASE b.digits := by
  have hB0 : (0 : Int) < BASE := by omega
  have h1 := value_lt_pow hB0 ha.2.1
  have hpos := canonical_length_pos ha
  have h2 := canonical_pow_le hB0 hb (by omega)
  have h3 : BASE ^ a.digits.length ≤ BASE ^ (b.digits.length - 1) :=
    pow_le_pow_right₀ (by omega) (by omega)
  linarith

theorem ltStart_of_le {n : Nat} (h0 : 1 ≤ n) (h1 : n ≤ 2147483648) :
    ltStart n = (n : Int) - 1 := by
  unfold ltStart
  exact wrapInt_of_range (by omega) (by omega)

theorem ltStart_neg {n : Nat} (h0 : 2147483648 < n) (h1 : n ≤ 4294967296) : ltStart n < 0 := by
  unfold ltStart wrapInt
  omega

theorem lt_of_length_ne {a b : bigint} (h : a.digits.length ≠ b.digits.length) :
    a.lt b = decide (a.digits.length < b.digits.length) := by
  unfold bigint.lt
  simp only [ne_eq, h, not_false_eq_true, if_true]

theorem lt_of_start_neg {a b : bigint} (h : a.digits.length = b.digits.length)
    (hneg : ltStart a.digits.length < 0) : a.lt b = false := by
  unfold bigint.lt
  simp only [ne_eq, h, not_true_eq_false, if_false]
  rw [h] at hneg
  simp only [hneg, if_true]

/-- On two vectors of the same size the loop of `operator<` compares the first
`k + 1` digits, from the last of them down, where `k` is the start index. -/
theorem lt_of_start {a b : bigint} (h : a.digits.length = b.digits.length) {k : Nat}
    (hk : ltStart a.digits.length = (k : Int)) :
    a.lt b = ltLoop (a.digits.take (k + 1)).reverse (b.digits.take (k + 1)).reverse := by
  unfold bigint.lt
  have hnn : ¬ltStart a.digits.length < 0 := by rw [hk]; omega
  have hto : (ltStart a.digits.length).toNat = k := by rw [hk]; exact Int.toNat_natCast k
  simp only [ne_eq, h, not_true_eq_false, if_false]
  rw [← h]
  simp only [hnn, if_false, hto]

/-- Up to `2^31` digits the loop of `operator<` visits every digit. -/
theorem lt_of_small {a b : bigint} (h : a.digits.length = b.digits.length)
    (hs : a.digits.length ≤ 2147483648) :
    a.lt b = ltLoop a.digits.reverse b.digits.reverse := by
  by_cases h0 : a.digits.length = 0
  · have ha : a.digits = [] := List.length_eq_zero.mp h0
    have hb : b.digits = [] := List.length_eq_zero.mp (by omega)
    rw [lt_of_start_neg h (by rw [h0]; decide), ha, hb]
    rfl
  · obtain ⟨k, hk⟩ : ∃ k, a.digits.length = k + 1 := ⟨a.digits.length - 1, by omega⟩
    have hst : ltStart a.digits.length = (k : Int) := by
      rw [ltStart_of_le (by omega) hs, hk]
      push_cast
      ring
    rw [lt_of_start h hst, List.take_of_length_le (by omega), List.take_of_length_le (by omega)]

/-- On canonical operands that differ in size, or have at most `2^31` digits,
`operator<` decides the order of the values. -/
theorem lt_iff_value_lt {BASE : Int} (hB : 2 ≤ BASE) {a b : bigint}
    (ha : Canonical BASE a) (hb : Canonical BASE b)
    (hsize : a.digits.length ≠ b.digits.length ∨ a.digits.length ≤ 2147483648) :
    a.lt b = true ↔ value BASE a.digits < value BASE b.digits := by
  have hB0 : (0 : Int) < BASE := by omega
  by_cases hlen : a.digits.length = b.digits.length
  · have hs : a.digits.length ≤ 2147483648 := by
      rcases hsize with h | h
      · exact absurd hlen h
      · exact h
    rw [lt_of_small hlen hs]
    have := ltLoop_iff hB0 a.digits.reverse b.digits.reverse (by simpa using hlen)
      (inRange_reverse ha.2.1) (inRange_reverse hb.2.1)
    simpa using this
  · rw [lt_of_length_ne hlen, decide_eq_true_eq]
    constructor
    · intro h; exact canonical_length_lt hB ha hb h
    · intro h
      by_contra hcon
      have := canonical_length_lt hB hb ha (by omega)
      omega

/-- On canonical operands with `value(a) >= value(b)` that differ in size, or have
at most `2^32` digits, `operator<` answers false: up to `2^31` digits it decides
the order, and from there to `2^32` digits its loop is skipped. -/
theorem lt_false_of_value_le {BASE : Int} (hB : 2 ≤ BASE) {a b : bigint}
    (ha : Canonical BASE a) (hb : Canonical BASE b)
    (hv : value BASE b.digits ≤ value BASE a.digits)
    (hsize : a.digits.length ≠ b.digits.length ∨ a.digits.length ≤ 4294967296) :
    a.lt b = false := by
  by_cases hlen : a.digits.length = b.digits.length
  · have hs : a.digits.length ≤ 4294967296 := by
      rcases hsize with h | h
      · exact absurd hlen h
      · exact h
    by_cases hsmall : a.digits.length ≤ 2147483648
    · rw [← Bool.not_eq_true, lt_iff_value_lt hB ha hb (Or.inr hsmall)]
      omega
    · exact lt_of_start_neg hlen (ltStart_neg (by omega) hs)
  · rw [← Bool.not_eq_true, lt_iff_value_lt hB ha hb (Or.inl hlen)]
    omega

/-- Two lists of the same length with digits in range and the same value are
the same list. -/
theorem value_injective {BASE : Int} (hB : 0 < BASE) :
    ∀ (l1 l2 : List Int), l1.length = l2.length → InRange BASE l1 → InRange BASE l2 →
      value BASE l1 = value BASE l2 → l1 = l2 := by
  intro l1
  induction l1 with
  | nil =>
    intro l2 hlen _ _ _
    exact (List.length_eq_zero.mp hlen.symm).symm
  | cons x xs ih =>
    intro l2 hlen h1 h2 hv
    cases l2 with
    | nil => simp at hlen
    | cons y ys =>
      obtain ⟨hx, hxs⟩ := inRange_cons h1
      obtain ⟨hy, hys⟩ := inRange_cons h2
      simp only [value] at hv
      have hxy : x = y := by
        have e1 : (x + BASE * value BASE xs) % BASE = x := by
          rw [Int.add_mul_emod_self_left]; exact Int.emod_eq_of_lt hx.1 hx.2
        have e2 : (y + BASE * value BASE ys) % BASE = y := by
          rw [Int.add_mul_emod_self_left]; exact Int.emod_eq_of_lt hy.1 hy.2
        rw [← e1, ← e2, hv]
      subst hxy
      have hv' : value BASE xs = value BASE ys := by
        have : BASE * value BASE xs = BASE * value BASE ys := by linarith
        exact mul_left_cancel₀ (ne_of_gt hB) this
      rw [ih ys (by simpa using hlen) hxs hys hv']

theorem canonical_ext {BASE : Int} (hB : 2 ≤ BASE) {a b : bigint}
    (ha : Canonical BASE a) (hb : Canonical BASE b)
    (hv : value BASE a.digits = value BASE b.digits) : a = b := by
  have hlen : a.digits.length = b.digits.length := by
    by_contra hne
    rcases Nat.lt_or_gt_of_ne hne with h | h
    · have := canonical_length_lt hB ha hb h; omega
    · have := canonical_length_lt hB hb ha h; omega
  have := value_injective (by omega) a.digits b.digits hlen ha.2.1 hb.2.1 hv
  cases a; cases b; simpa using this

/-! ## Subtraction: the loop invariant -/

theorem subInv_init (BASE : Int) (a b : bigint) : SubInv BASE a b ⟨0, 0, []⟩ where
  len := rfl
  borrow01 := Or.inl rfl
  range := fun d hd => absurd hd (List.not_mem_nil d)
  val := by simp [value]

theorem subInv_step {BASE : Int} (hB : 2 ≤ BASE) (hmax : BASE ≤ 2147483647) {a b : bigint}
    (ha : InRange BASE a.digits) (hb : InRange BASE b.digits)
    {s : SubState} (hs : SubInv BASE a b s) :
    SubInv BASE a b (subBody BASE a b s) ∧ (subBody BASE a b s).i = s.i + 1 := by
  have hai := inRange_getD (by omega) ha s.i
  have hbi := inRange_getD (by omega) hb s.i
  have hbor : 0 ≤ s.borrow ∧ s.borrow ≤ 1 := by rcases hs.borrow01 with h | h <;> omega
  have e0 : wrapInt (a.digits.getD s.i 0 - s.borrow) = a.digits.getD s.i 0 - s.borrow :=
    wrapInt_of_range (by omega) (by omega)
  have e1 : (if s.i < b.digits.length
      then wrapInt (a.digits.getD s.i 0 - s.borrow - b.digits.getD s.i 0)
      else a.digits.getD s.i 0 - s.borrow)
      = a.digits.getD s.i 0 - s.borrow - b.digits.getD s.i 0 := by
    by_cases h : s.i < b.digits.length
    · simp only [h, if_true]
      exact wrapInt_of_range (by omega) (by omega)
    · have : b.digits.getD s.i 0 = 0 := List.getD_eq_default _ _ (by omega)
      simp only [h, if_false, this, sub_zero]
  unfold subBody
  simp only [e0, e1]
  generalize hd : a.digits.getD s.i 0 - s.borrow - b.digits.getD s.i 0 = d
  have hv := hs.val
  by_cases hneg : d < 0
  · have e2 : wrapInt (d + BASE) = d + BASE := wrapInt_of_range (by omega) (by omega)
    simp only [hneg, if_true, e2, and_true]
    refine ⟨by simp [hs.len], Or.inr rfl, inRange_append hs.range (by omega) (by omega), ?_⟩
    show value BASE (s.result ++ [d + BASE]) - 1 * BASE ^ (s.i + 1) = _
    rw [value_append, value_take_succ, value_take_succ, hs.len, pow_succ, ← hd]
    linear_combination hv
  · simp only [hneg, if_false, and_true]
    refine ⟨by simp [hs.len], Or.inl rfl, inRange_append hs.range (by omega) (by omega), ?_⟩
    show value BASE (s.result ++ [d]) - 0 * BASE ^ (s.i + 1) = _
    rw [value_append, value_take_succ, value_take_succ, hs.len, ← hd]
    linear_combination hv

theorem subLoop_spec {BASE : Int} (hB : 2 ≤ BASE) (hmax : BASE ≤ 2147483647) {a b : bigint}
    (ha : InRange BASE a.digits) (hb : InRange BASE b.digits) :
    ∀ (n : Nat) (s : SubState), SubInv BASE a b s →
      SubInv BASE a b (subLoop BASE a b n s) ∧ (subLoop BASE a b n s).i = s.i + n := by
  intro n
  induction n with
  | zero => intro s hs; exact ⟨hs, rfl⟩
  | succ n ih =>
    intro s hs
    obtain ⟨h1, h2⟩ := subInv_step hB hmax ha hb hs
    obtain ⟨h3, h4⟩ := ih _ h1
    exact ⟨h3, by rw [subLoop, h4, h2]; omega⟩

theorem canonical_zero {BASE : Int} (hB : 1 ≤ BASE) : Canonical BASE ⟨[0]⟩ := by
  refine ⟨by simp, ?_, fun _ => rfl⟩
  intro d hd
  have : d = 0 := by simpa using hd
  subst this; omega

/-- When `a < b` is false on canonical operands, the loop of `operator-` ends
with borrow 0 and with digits in range whose value is the difference. -/
theorem subLoop_final {BASE : Int} (hB : 2 ≤ BASE) (hmax : BASE ≤ 2147483647) {a b : bigint}
    (ha : Canonical BASE a) (hb : Canonical BASE b)
    (hge : value BASE b.digits ≤ value BASE a.digits) :
    (subLoop BASE a b a.digits.length ⟨0, 0, []⟩).borrow = 0 ∧
      (subLoop BASE a b a.digits.length ⟨0, 0, []⟩).result ≠ [] ∧
      InRange BASE (subLoop BASE a b a.digits.length ⟨0, 0, []⟩).result ∧
      value BASE (subLoop BASE a b a.digits.length ⟨0, 0, []⟩).result
        = value BASE a.digits - value BASE b.digits := by
  have hB0 : (0 : Int) < BASE := by omega
  have hlen : b.digits.length ≤ a.digits.length := by
    by_contra hcon
    have := canonical_length_lt hB ha hb (by omega)
    omega
  obtain ⟨hinv, hi⟩ := subLoop_spec hB hmax ha.2.1 hb.2.1 a.digits.length ⟨0, 0, []⟩
    (subInv_init BASE a b)
  generalize subLoop BASE a b a.digits.length ⟨0, 0, []⟩ = s at hinv hi
  have hi' : s.i = a.digits.length := by simpa using hi
  have hv := hinv.val
  rw [hi', List.take_of_length_le (le_refl _), List.take_of_length_le hlen] at hv
  have h1 := value_lt_pow hB0 hinv.range
  have h2 := value_nonneg hB0 hinv.range
  have h3 := value_lt_pow hB0 ha.2.1
  have h4 := value_nonneg hB0 hb.2.1
  rw [hinv.len, hi'] at h1
  have hbor : s.borrow = 0 := by
    rcases hinv.borrow01 with h | h
    · exact h
    · rw [h] at hv; linarith
  refine ⟨hbor, ?_, hinv.range, ?_⟩
  · intro hnil
    have hl := hinv.len
    rw [show s.result = [] from hnil, hi'] at hl
    exact ha.1 (List.length_eq_zero.mp hl.symm)
  · rw [hbor] at hv; linarith

/-- The result of `operator-` on canonical operands is canonical, whichever way
the test `*this < other` goes. -/
theorem sub_canonical {BASE : Int} (hB : 2 ≤ BASE) (hmax : BASE ≤ 2147483647) {a b : bigint}
    (ha : Canonical BASE a) (hb : Canonical BASE b) : Canonical BASE (bigint.sub BASE a b) := by
  unfold bigint.sub
  by_cases hlt : a.lt b = true
  · simp only [hlt, if_true]
    exact canonical_zero (by omega)
  · simp only [hlt, Bool.false_eq_true, if_false]
    obtain ⟨hinv, hi⟩ := subLoop_spec hB hmax ha.2.1 hb.2.1 a.digits.length ⟨0, 0, []⟩
      (subInv_init BASE a b)
    generalize subLoop BASE a b a.digits.length ⟨0, 0, []⟩ = s at hinv hi
    have hi' : s.i = a.digits.length := by simpa using hi
    apply canonical_trim _ hinv.range
    intro hnil
    have hl := hinv.len
    rw [show s.result = [] from hnil, hi'] at hl
    exact ha.1 (List.length_eq_zero.mp hl.symm)

/-- Functional correctness of `operator-` on canonical operands: the result is
canonical, and it has the difference as value when `value(a) >= value(b)` and
the operands differ in size or have at most `2^32` digits. -/
theorem sub_spec {BASE : Int} (hB : 2 ≤ BASE) (hmax : BASE ≤ 2147483647) {a b : bigint}
    (ha : Canonical BASE a) (hb : Canonical BASE b) :
    Canonical BASE (bigint.sub BASE a b) ∧
      (value BASE b.digits ≤ value BASE a.digits →
        (a.digits.length ≠ b.digits.length ∨ a.digits.length ≤ 4294967296) →
        value BASE (bigint.sub BASE a b).digits = value BASE a.digits - value BASE b.digits) := by
  refine ⟨sub_canonical hB hmax ha hb, ?_⟩
  intro hge hsize
  unfold bigint.sub
  rw [lt_false_of_value_le hB ha hb hge hsize]
  simp only [Bool.false_eq_true, if_false]
  obtain ⟨_, _, _, h4⟩ := subLoop_final hB hmax ha hb hge
  rw [value_trim]; exact h4

/-- On canonical operands with `value(a) < value(b)` that differ in size, or have
at most `2^31` digits, `operator-` returns `[0]`. -/
theorem sub_of_value_lt {BASE : Int} (hB : 2 ≤ BASE) {a b : bigint}
    (ha : Canonical BASE a) (hb : Canonical BASE b)
    (hlt : value BASE a.digits < value BASE b.digits)
    (hsize : a.digits.length ≠ b.digits.length ∨ a.digits.length ≤ 2147483648) :
    bigint.sub BASE a b = ⟨[0]⟩ := by
  unfold bigint.sub
  rw [if_pos ((lt_iff_value_lt hB ha hb hsize).mpr hlt)]

/-! ## The string constructor and `to_string` -/

theorem skipZeros_replicate_append (k : Nat) (s : List Int) :
    skipZeros (List.replicate k 48 ++ s) = skipZeros s := by
  induction k with
  | zero => rfl
  | succ n ih => simp [List.replicate_succ, skipZeros, ih]

theorem skipZeros_replicate (k : Nat) : skipZeros (List.replicate k 48) = [] := by
  have := skipZeros_replicate_append k []
  simpa [skipZeros] using this

theorem skipZeros_of_head {s : List Int} (h : s.head? ≠ some 48) : skipZeros s = s := by
  cases s with
  | nil => rfl
  | cons c cs =>
    have hc : c ≠ 48 := by simpa using h
    simp [skipZeros, hc]

theorem skipZeros_all_zero {s : List Int} (h : ∀ c ∈ s, c = 48) : skipZeros s = [] := by
  induction s with
  | nil => rfl
  | cons c cs ih =>
    have hc : c = 48 := h c (List.mem_cons_self _ _)
    simp only [skipZeros, hc, if_true]
    exact ih (fun d hd => h d (List.mem_cons_of_mem _ hd))

theorem parseLoop_some (BASE : Int) :
    ∀ (cs digits : List Int), (∀ c ∈ cs, 48 ≤ c ∧ c < wrapInt (BASE + 48)) →
      parseLoop BASE cs digits = some (digits ++ cs.map (fun c => c - 48)) := by
  intro cs
  induction cs with
  | nil => intro digits _; simp [parseLoop]
  | cons c cs ih =>
    intro digits h
    have hc := h c (List.mem_cons_self _ _)
    have hnot : ¬(c < 48 ∨ c ≥ wrapInt (BASE + 48)) := by omega
    simp only [parseLoop, hnot, if_false]
    rw [ih _ (fun d hd => h d (List.mem_cons_of_mem _ hd))]
    simp

theorem parseLoop_none (BASE : Int) :
    ∀ (cs digits : List Int), (∃ c ∈ cs, c < 48 ∨ c ≥ wrapInt (BASE + 48)) →
      parseLoop BASE cs digits = none := by
  intro cs
  induction cs with
  | nil => intro digits h; obtain ⟨c, hc, _⟩ := h; exact absurd hc (List.not_mem_nil c)
  | cons c cs ih =>
    intro digits h
    by_cases hbad : c < 48 ∨ c ≥ wrapInt (BASE + 48)
    · simp [parseLoop, hbad]
    · simp only [parseLoop, hbad, if_false]
      apply ih
      obtain ⟨d, hd, hd'⟩ := h
      rcases List.mem_cons.mp hd with h1 | h1
      · subst h1; exact absurd hd' hbad
      · exact ⟨d, h1, hd'⟩

/-- The string constructor returns either `[0]` or the trimmed reversal of the
digit values of the characters that follow the leading zeros, all of them
accepted by the digit test. -/
theorem ofString_cases (BASE : Int) (str : List Int) :
    bigint.ofString BASE str = ⟨[0]⟩ ∨
      (skipZeros str ≠ [] ∧ (∀ c ∈ skipZeros str, 48 ≤ c ∧ c < wrapInt (BASE + 48)) ∧
        bigint.ofString BASE str
          = bigint.trim ⟨((skipZeros str).map (fun c => c - 48)).reverse⟩) := by
  unfold bigint.ofString
  by_cases h1 : str = []
  · simp [h1]
  · by_cases h2 : skipZeros str = []
    · simp [h1, h2]
    · by_cases h3 : ∀ c ∈ skipZeros str, 48 ≤ c ∧ c < wrapInt (BASE + 48)
      · right
        refine ⟨h2, h3, ?_⟩
        simp only [h1, h2, if_false, parseLoop_some BASE _ [] h3, List.nil_append]
      · left
        have : ∃ c ∈ skipZeros str, c < 48 ∨ c ≥ wrapInt (BASE + 48) := by
          by_contra hcon
          apply h3
          intro c hc
          by_contra hbad
          exact hcon ⟨c, hc, by omega⟩
        simp only [h1, h2, if_false, parseLoop_none BASE _ [] this]

theorem canonical_ofString {BASE : Int} (hB : 2 ≤ BASE) (str : List Int) :
    Canonical BASE (bigint.ofString BASE str) := by
  rcases ofString_cases BASE str with h | ⟨h1, h2, h3⟩
  · rw [h]; exact canonical_zero (by omega)
  · rw [h3]
    apply canonical_trim
    · simpa using h1
    · intro d hd
      simp only [List.mem_reverse, List.mem_map] at hd
      obtain ⟨c, hc, rfl⟩ := hd
      have := h2 c hc
      have hw : wrapInt (BASE + 48) ≤ BASE + 48 := wrapInt_le_self (by omega)
      omega

/-! ## Operands of more than `2^31` digits -/

theorem ofUInt_length_fuel {BASE : Int} (hB : 2 ≤ BASE) (hmax : BASE ≤ 2147483647)
    {fuel : Nat} (hf : 33 ≤ fuel) {x y : Nat} (hx : x < 4294967296) (hy : y < 4294967296) :
    ∃ a b, bigint.ofUInt BASE fuel x = some a ∧ bigint.ofUInt BASE fuel y = some b ∧
      Canonical BASE a ∧ Canonical BASE b ∧ value BASE a.digits = x ∧ value BASE b.digits = y ∧
      max a.digits.length b.digits.length + 1 ≤ fuel := by
  obtain ⟨a, h1, h2, h3, h4⟩ := ofUInt_spec hB hmax (by omega : 32 ≤ fuel) hx
  obtain ⟨b, h5, h6, h7, h8⟩ := ofUInt_spec hB hmax (by omega : 32 ≤ fuel) hy
  exact ⟨a, b, h1, h5, h2, h6, h3, h7, by omega⟩

set_option maxRecDepth 8192 in
theorem add_uint_max_one :
    bigint.add 10 33 ⟨[5, 9, 2, 7, 6, 9, 4, 9, 2, 4]⟩ ⟨[1]⟩
      = some ⟨[6, 9, 2, 7, 6, 9, 4, 9, 2, 4]⟩ := by
  decide

/-- C1, at the radix `INT_MAX`: the operands `[2147483646]` are canonical (and
are what the unsigned constructor builds from 2147483646), their digit sum
overflows `int`, and `operator+` returns `[-4]`, whose value is not the sum of
the values. -/
theorem add_value_overflow_counterexample :
    Canonical 2147483647 ⟨[2147483646]⟩ ∧
      bigint.ofUInt 2147483647 33 2147483646 = some ⟨[2147483646]⟩ ∧
      bigint.add 2147483647 33 ⟨[2147483646]⟩ ⟨[2147483646]⟩ = some ⟨[-4]⟩ ∧
      value 2147483647 [-4]
        ≠ value 2147483647 [2147483646] + value 2147483647 [2147483646] := by
  decide

/-- C1 (amended): for every radix `2 ≤ BASE ≤ 2^30` and canonical `a`, `b`,
`operator+` returns (its loop is over within `max(len a, len b) + 1`
iterations) and the value of `a + b` is `value(a) + value(b)` as an unbounded
integer; for all `x, y < 2^32`, `bigint(x) + bigint(y)` has value `x + y`; and
with `BASE = 10`, `bigint(4294967295) + bigint(1) == bigint("4294967296")`. -/
theorem add_value_exact (BASE : Int) (hB : 2 ≤ BASE) (hB30 : BASE ≤ 1073741824)
    (a b : bigint) (ha : Canonical BASE a) (hb : Canonical BASE b)
    (fuel : Nat) (hf : max a.digits.length b.digits.length + 1 ≤ fuel)
    (x y fuel2 : Nat) (hx : x < 4294967296) (hy : y < 4294967296) (hf2 : 33 ≤ fuel2) :
    (∃ r, bigint.add BASE fuel a b = some r ∧
        value BASE r.digits = value BASE a.digits + value BASE b.digits) ∧
      (∃ p q r, bigint.ofUInt BASE fuel2 x = some p ∧ bigint.ofUInt BASE fuel2 y = some q ∧
        bigint.add BASE fuel2 p q = some r ∧ value BASE r.digits = (x : Int) + (y : Int)) ∧
      (∃ p q r, bigint.ofUInt 10 33 4294967295 = some p ∧ bigint.ofUInt 10 33 1 = some q ∧
        bigint.add 10 33 p q = some r ∧ r.eq (bigint.ofString 10 (cstr "4294967296")) = true) := by
  refine ⟨?_, ?_, ?_⟩
  · obtain ⟨r, h1, _, h3⟩ := add_spec hB ha.2.1 hb.2.1 (addFits_of_base hB hB30 ha.2.1 hb.2.1)
      (lt_of_lt_of_le (canonical_length_pos ha) (le_max_left _ _)) hf
    exact ⟨r, h1, h3⟩
  · obtain ⟨p, q, h1, h2, h3, h4, h5, h6, h7⟩ :=
      ofUInt_length_fuel hB (by omega) hf2 hx hy
    obtain ⟨r, h8, _, h9⟩ := add_spec hB h3.2.1 h4.2.1 (addFits_of_base hB hB30 h3.2.1 h4.2.1)
      (lt_of_lt_of_le (canonical_length_pos h3) (le_max_left _ _)) h7
    exact ⟨p, q, r, h1, h2, h8, by rw [h9, h5, h6]⟩
  · exact ⟨⟨[5, 9, 2, 7, 6, 9, 4, 9, 2, 4]⟩, ⟨[1]⟩, ⟨[6, 9, 2, 7, 6, 9, 4, 9, 2, 4]⟩,
      by decide, by decide, add_uint_max_one, by decide⟩

/-- C1 (amended), at `BASE = 10`, `999 + 1` and `4294967295 + 7`. -/
theorem add_value_exact_witness :
    (∃ r, bigint.add 10 4 ⟨[9, 9, 9]⟩ ⟨[1]⟩ = some r ∧
        value 10 r.digits = value 10 [9, 9, 9] + value 10 [1]) ∧
      (∃ p q r, bigint.ofUInt 10 33 4294967295 = some p ∧ bigint.ofUInt 10 33 7 = some q ∧
        bigint.add 10 33 p q = some r ∧ value 10 r.digits = ((4294967295 : Nat) : Int) + ((7 : Nat) : Int)) :=
  let h := add_value_exact 10 (by decide) (by decide) ⟨[9, 9, 9]⟩ ⟨[1]⟩ (by decide) (by decide)
    4 (by decide) 4294967295 7 33 (by decide) (by decide) (by decide)
  ⟨h.1, h.2.1⟩

/-- On a non-empty string that does not start with `'0'` and whose characters all
pass the digit test, the string constructor stores the reversed digit values;
`trim` removes nothing. -/
theorem ofString_valid (BASE : Int) {str : List Int} (hne : str ≠ [])
    (hhead : str.head? ≠ some 48) (hvalid : ∀ c ∈ str, 48 ≤ c ∧ c < wrapInt (BASE + 48)) :
    bigint.ofString BASE str = ⟨(str.map (fun c => c - 48)).reverse⟩ := by
  unfold bigint.ofString
  have hskip := skipZeros_of_head hhead
  simp only [hne, hskip, if_false, parseLoop_some BASE str [] hvalid, List.nil_append]
  unfold bigint.trim
  simp only [List.reverse_reverse]
  rw [trimLoop_id]
  intro h
  exfalso
  cases str with
  | nil => exact hne rfl
  | cons c cs =>
    simp only [List.map_cons, List.head?_cons, Option.some.injEq] at h
    have hc : c ≠ 48 := fun e => hhead (by rw [e]; rfl)
    omega

theorem wrapInt_58 : wrapInt (10 + 48) = 58 := by decide

theorem digitChar_eq {d : Int} (h0 : 0 ≤ d) (h1 : d < 10) :
    castChar (wrapInt (d + 48)) = d + 48 := by
  rw [wrapInt_of_range (by omega) (by omega), castChar_of_range (by omega) (by omega)]

/-- C4: with `BASE = 10`, for every canonical decimal string `s` of any length,
`bigint(s).to_string() == s`. -/
theorem ofString_to_string_round_trip (s : List Int) (hs : CanonicalDecimal s) :
    (bigint.ofString 10 s).to_string = s := by
  obtain ⟨hne, hdig, hzero⟩ := hs
  by_cases h48 : s = [48]
  · subst h48; decide
  · have hhead : s.head? ≠ some 48 := fun h => h48 (hzero h)
    have hvalid : ∀ c ∈ s, 48 ≤ c ∧ c < wrapInt (10 + 48) := by
      intro c hc
      have := hdig c hc
      rw [wrapInt_58]; omega
    rw [ofString_valid 10 hne hhead hvalid]
    unfold bigint.to_string
    have h1 : ¬((s.map (fun c => c - 48)).reverse = [] ∨ (s.map (fun c => c - 48)).reverse = [0]) := by
      intro h
      rcases h with h | h
      · simp at h; exact hne h
      · have h' := congrArg List.reverse h
        simp only [List.reverse_reverse, List.reverse_cons, List.reverse_nil, List.nil_append] at h'
        cases s with
        | nil => exact hne rfl
        | cons c cs =>
          cases cs with
          | nil =>
            simp only [List.map_cons, List.map_nil, List.cons.injEq, and_true] at h'
            apply h48
            have : c = 48 := by omega
            rw [this]
          | cons c2 cs2 => simp at h'
    simp only [h1, if_false, List.reverse_reverse, List.map_map]
    conv_rhs => rw [← List.map_id s]
    apply List.map_congr_left
    intro c hc
    have := hdig c hc
    simp only [Function.comp_apply, id_eq]
    rw [digitChar_eq (by omega) (by omega)]
    omega

/-- C4, on the string `"4294967296"`. -/
theorem ofString_to_string_round_trip_witness :
    (bigint.ofString 10 (cstr "4294967296")).to_string = cstr "4294967296" :=
  ofString_to_string_round_trip (cstr "4294967296") (by decide)

/-- C5: with `BASE = 10`, for every canonical bigint `a`,
`bigint(a.to_string()) == a`: the digit list is recovered exactly. -/
theorem to_string_ofString_round_trip (a : bigint) (ha : Canonical 10 a) :
    bigint.ofString 10 a.to_string = a ∧ (bigint.ofString 10 a.to_string).eq a = true := by
  have key : bigint.ofString 10 a.to_string = a := by
    obtain ⟨hne, hr, hlast⟩ := ha
    obtain ⟨ds⟩ := a
    simp only at hne hr hlast
    by_cases h0 : ds = [0]
    · subst h0; decide
    · have hstr : bigint.to_string ⟨ds⟩ = ds.reverse.map (fun d => d + 48) := by
        unfold bigint.to_string
        simp only [hne, h0, or_self, if_false]
        apply List.map_congr_left
        intro d hd
        have := hr d (List.mem_reverse.mp hd)
        exact digitChar_eq this.1 this.2
      rw [hstr]
      have hne' : ds.reverse.map (fun d => d + 48) ≠ [] := by simpa using hne
      have hhead : (ds.reverse.map (fun d => d + 48)).head? ≠ some 48 := by
        intro h
        apply h0
        apply hlast
        rw [List.head?_map, List.head?_reverse] at h
        cases hl : ds.getLast? with
        | none => rw [hl] at h; simp at h
        | some d =>
          rw [hl] at h
          simp only [Option.map_some', Option.some.injEq] at h
          have : d = 0 := by omega
          rw [this]
      have hvalid : ∀ c ∈ ds.reverse.map (fun d => d + 48), 48 ≤ c ∧ c < wrapInt (10 + 48) := by
        intro c hc
        simp only [List.mem_map, List.mem_reverse] at hc
        obtain ⟨d, hd, rfl⟩ := hc
        have := hr d hd
        rw [wrapInt_58]; omega
      rw [ofString_valid 10 hne' hhead hvalid]
      simp [List.map_map, Function.comp_def]
  exact ⟨key, by simp [bigint.eq, key]⟩

/-- C5, on the digit list of 4294967296. -/
theorem to_string_ofString_round_trip_witness :
    bigint.ofString 10 (bigint.to_string ⟨[6, 9, 2, 7, 6, 9, 4, 9, 2, 4]⟩)
        = ⟨[6, 9, 2, 7, 6, 9, 4, 9, 2, 4]⟩ ∧
      (bigint.ofString 10 (bigint.to_string ⟨[6, 9, 2, 7, 6, 9, 4, 9, 2, 4]⟩)).eq
        ⟨[6, 9, 2, 7, 6, 9, 4, 9, 2, 4]⟩ = true :=
  to_string_ofString_round_trip ⟨[6, 9, 2, 7, 6, 9, 4, 9, 2, 4]⟩ (by decide)

theorem ofString_replicate_append (BASE : Int) (s : List Int) (k : Nat) :
    bigint.ofString BASE (List.replicate k 48 ++ s) = bigint.ofString BASE s := by
  unfold bigint.ofString
  by_cases hs : s = []
  · subst hs
    by_cases hk : List.replicate k 48 = ([] : List Int)
    · simp [hk]
    · simp [hk, skipZeros_replicate]
  · have hne : List.replicate k 48 ++ s ≠ [] := by
      intro h; exact hs (List.append_eq_nil.mp h).2
    simp only [hne, hs, if_false, skipZeros_replicate_append]

/-- C6: for every string `s` (valid or not, possibly empty), every `k >= 0` and
every `BASE`, constructing from `k` characters `'0'` followed by `s` gives the
same digit list, and the same `to_string()`, as constructing from `s`; with
`BASE = 10`, `bigint("00042") == bigint("42")` and
`bigint("007").to_string() == "7"`. -/
theorem ofString_leading_zeros (BASE : Int) (s : List Int) (k : Nat) :
    bigint.ofString BASE (List.replicate k 48 ++ s) = bigint.ofString BASE s ∧
      (bigint.ofString BASE (List.replicate k 48 ++ s)).to_string
        = (bigint.ofString BASE s).to_string ∧
      (bigint.ofString 10 (cstr "00042")).eq (bigint.ofString 10 (cstr "42")) = true ∧
      (bigint.ofString 10 (cstr "007")).to_string = cstr "7" := by
  have key := ofString_replicate_append BASE s k
  exact ⟨key, by rw [key], by decide, by decide⟩

/-- C7: for every `BASE` (an `int`) and string `s`, if `s` is empty, or consists
only of `'0'` characters, or is `k` characters `'0'` followed by a string `t`
that does not start with `'0'` and contains a character `c` with `c < '0'` or
`c >= '0' + BASE` at any position, then `bigint(s)` is exactly `[0]` and equals
`bigint("0")`. -/
theorem ofString_malformed_is_zero (BASE : Int) (hmin : -2147483648 ≤ BASE) (s : List Int)
    (hs : s = [] ∨ (∀ c ∈ s, c = 48) ∨
      (∃ (k : Nat) (t : List Int), s = List.replicate k 48 ++ t ∧ t.head? ≠ some 48 ∧
        ∃ c ∈ t, c < 48 ∨ c ≥ 48 + BASE)) :
    bigint.ofString BASE s = ⟨[0]⟩ ∧
      (bigint.ofString BASE s).eq (bigint.ofString BASE (cstr "0")) = true := by
  have hz : bigint.ofString BASE (cstr "0") = ⟨[0]⟩ := by
    unfold bigint.ofString
    simp [cstr, skipZeros]
  have key : bigint.ofString BASE s = ⟨[0]⟩ := by
    rcases hs with h | h | ⟨k, t, hst, hhead, c, hc, hbad⟩
    · subst h; simp [bigint.ofString]
    · unfold bigint.ofString
      simp [skipZeros_all_zero h]
    · rw [hst, ofString_replicate_append BASE t k]
      unfold bigint.ofString
      have hw : wrapInt (BASE + 48) ≤ BASE + 48 := wrapInt_le_self (by omega)
      have hnone := parseLoop_none BASE t [] ⟨c, hc, by omega⟩
      by_cases ht : t = []
      · simp [ht]
      · simp only [ht, if_false, skipZeros_of_head hhead, hnone]
  exact ⟨key, by rw [key, hz]; rfl⟩

/-- C7, with `BASE = 10`, on the string `"0012a"`. -/
theorem ofString_malformed_is_zero_witness :
    bigint.ofString 10 (cstr "0012a") = ⟨[0]⟩ ∧
      (bigint.ofString 10 (cstr "0012a")).eq (bigint.ofString 10 (cstr "0")) = true :=
  ofString_malformed_is_zero 10 (by decide) (cstr "0012a")
    (Or.inr (Or.inr ⟨2, cstr "12a", by decide, by decide, 97, by decide, by decide⟩))

/-! ## Claims on the canonical form and on comparison -/

theorem ofUInt_one {BASE : Int} (hB : 2 ≤ BASE) (hmax : BASE ≤ 2147483647)
    {fuel : Nat} (hf : 1 ≤ fuel) : bigint.ofUInt BASE fuel 1 = some ⟨[1]⟩ := by
  obtain ⟨ds, h1, h2, h3, h4, _, h6⟩ := ofUIntLoop_spec hB hmax 1 fuel 1 [] (by norm_num) hf
  obtain ⟨hne, _⟩ := h6 (by norm_num)
  obtain ⟨d, rest, rfl⟩ := List.exists_cons_of_ne_nil hne
  have hrest : rest = [] := by
    simp only [List.length_cons] at h4
    exact List.length_eq_zero.mp (by omega)
  subst hrest
  have hd : d = 1 := by simpa [value] using h2
  subst hd
  simp [bigint.ofUInt, h1]

theorem addFits_one {BASE : Int} (hB : 2 ≤ BASE) (hmax : BASE ≤ 2147483647) {a : bigint}
    (ha : InRange BASE a.digits) : AddFits a ⟨[1]⟩ := by
  intro i
  have hai := inRange_getD (by omega) ha i
  unfold INT_MAX
  cases i with
  | zero => simp only [List.getD_cons_zero, if_true]; omega
  | succ j =>
    have : ([1] : List Int).getD (j + 1) 0 = 0 := by simp
    rw [this]
    simp only [Nat.succ_ne_zero, if_false]
    omega

theorem inRange_one {BASE : Int} (hB : 2 ≤ BASE) : InRange BASE [1] := by
  intro d hd
  have : d = 1 := by simpa using hd
  subst this; omega

/-- Pre-increment on a canonical receiver, for every `int` radix: the loops are
over within `len a + 1` iterations, the new receiver is canonical and its value
is one more. -/
theorem pre_inc_spec {BASE : Int} (hB : 2 ≤ BASE) (hmax : BASE ≤ 2147483647) {a : bigint}
    (ha : Canonical BASE a) {fuel : Nat} (hf : a.digits.length + 1 ≤ fuel) :
    ∃ r, bigint.pre_inc BASE fuel a = some r ∧ Canonical BASE r ∧
      value BASE r.digits = value BASE a.digits + 1 := by
  have hpos := canonical_length_pos ha
  have hmaxlen : max a.digits.length (bigint.mk [1]).digits.length = a.digits.length := by
    simp only [List.length_singleton]; omega
  have hne : 0 < max a.digits.length (bigint.mk [1]).digits.length := by
    rw [hmaxlen]; exact hpos
  have hf' : max a.digits.length (bigint.mk [1]).digits.length + 1 ≤ fuel := by
    rw [hmaxlen]; exact hf
  obtain ⟨r, h1, h2, h3⟩ := add_spec hB ha.2.1 (inRange_one hB)
    (addFits_one hB hmax ha.2.1) hne hf'
  refine ⟨r, ?_, h2, ?_⟩
  · simp [bigint.pre_inc, ofUInt_one hB hmax (by omega : 1 ≤ fuel), bigint.add_assign, h1]
  · rw [h3]; simp [value]

/-- Pre-decrement on a canonical receiver, for every `int` radix. -/
theorem pre_dec_spec {BASE : Int} (hB : 2 ≤ BASE) (hmax : BASE ≤ 2147483647) {a : bigint}
    (ha : Canonical BASE a) {fuel : Nat} (hf : 1 ≤ fuel) :
    bigint.pre_dec BASE fuel a = some (bigint.sub BASE a ⟨[1]⟩) ∧
      Canonical BASE (bigint.sub BASE a ⟨[1]⟩) := by
  have hone : Canonical BASE ⟨[1]⟩ := ⟨by simp, inRange_one hB, by simp⟩
  exact ⟨by simp [bigint.pre_dec, ofUInt_one hB hmax hf, bigint.sub_assign],
    (sub_spec hB hmax ha hone).1⟩

/-- C8, at the radix `2^30 + 1`: the operands `[2^30]` are canonical, their
digit sum overflows `int`, and `operator+` returns `[-1073741823, -1]`, which
has negative digits. -/
theorem add_canonical_overflow_counterexample :
    Canonical 1073741825 ⟨[1073741824]⟩ ∧
      bigint.add 1073741825 3 ⟨[1073741824]⟩ ⟨[1073741824]⟩ = some ⟨[-1073741823, -1]⟩ ∧
      ¬Canonical 1073741825 ⟨[-1073741823, -1]⟩ := by
  decide

/-- C8 (amended): for every radix `BASE >= 2` (an `int`), the default
constructor, the string constructor on every string and the unsigned
constructor on every value produce a canonical digit list, and `-`, `-=`, `++`
and `--` on canonical operands return a canonical result; `+` and `+=` on
canonical operands return a canonical result when `BASE <= 2^30`. -/
theorem canonical_invariant (BASE : Int) (hB : 2 ≤ BASE) (hmax : BASE ≤ INT_MAX)
    (str : List Int) (x fuel : Nat) (hx : x < 4294967296) (hf : 32 ≤ fuel)
    (a b : bigint) (ha : Canonical BASE a) (hb : Canonical BASE b)
    (fuel2 : Nat) (hf2 : max a.digits.length b.digits.length + 1 ≤ fuel2) :
    Canonical BASE bigint.zero ∧
      Canonical BASE (bigint.ofString BASE str) ∧
      (∃ p, bigint.ofUInt BASE fuel x = some p ∧ Canonical BASE p) ∧
      Canonical BASE (bigint.sub BASE a b) ∧
      Canonical BASE (bigint.sub_assign BASE a b) ∧
      (∃ r, bigint.pre_inc BASE fuel2 a = some r ∧ Canonical BASE r) ∧
      (∃ t r, bigint.post_inc BASE fuel2 a = some (t, r) ∧ Canonical BASE t ∧ Canonical BASE r) ∧
      (∃ r, bigint.pre_dec BASE fuel2 a = some r ∧ Canonical BASE r) ∧
      (∃ t r, bigint.post_dec BASE fuel2 a = some (t, r) ∧ Canonical BASE t ∧ Canonical BASE r) ∧
      (BASE ≤ 1073741824 →
        (∃ r, bigint.add BASE fuel2 a b = some r ∧ Canonical BASE r) ∧
        (∃ r, bigint.add_assign BASE fuel2 a b = some r ∧ Canonical BASE r)) := by
  unfold INT_MAX at hmax
  have hfa : a.digits.length + 1 ≤ fuel2 := le_trans (by simp) hf2
  obtain ⟨p, hp1, hp2, _, _⟩ := ofUInt_spec hB hmax hf hx
  obtain ⟨r, hr1, hr2, _⟩ := pre_inc_spec hB hmax ha hfa
  obtain ⟨hd1, hd2⟩ := pre_dec_spec hB hmax ha (by omega : 1 ≤ fuel2)
  have hsub := (sub_spec hB hmax ha hb).1
  refine ⟨canonical_zero (by omega), canonical_ofString hB str, ⟨p, hp1, hp2⟩, hsub, hsub,
    ⟨r, hr1, hr2⟩, ⟨a, r, by simp [bigint.post_inc, hr1], ha, hr2⟩,
    ⟨_, hd1, hd2⟩, ⟨a, _, by simp [bigint.post_dec, hd1], ha, hd2⟩, ?_⟩
  intro hB30
  obtain ⟨s, hs1, hs2, _⟩ := add_spec hB ha.2.1 hb.2.1 (addFits_of_base hB hB30 ha.2.1 hb.2.1)
    (lt_of_lt_of_le (canonical_length_pos ha) (le_max_left _ _)) hf2
  exact ⟨⟨s, hs1, hs2⟩, ⟨s, hs1, hs2⟩⟩

/-- C8 (amended), at `BASE = 10` with the string `"00042"`, the value
4294967295 and the operands 999 and 1. -/
theorem canonical_invariant_witness :
    Canonical 10 bigint.zero ∧
      Canonical 10 (bigint.ofString 10 (cstr "00042")) ∧
      (∃ p, bigint.ofUInt 10 32 4294967295 = some p ∧ Canonical 10 p) ∧
      Canonical 10 (bigint.sub 10 ⟨[9, 9, 9]⟩ ⟨[1]⟩) ∧
      Canonical 10 (bigint.sub_assign 10 ⟨[9, 9, 9]⟩ ⟨[1]⟩) ∧
      (∃ r, bigint.pre_inc 10 4 ⟨[9, 9, 9]⟩ = some r ∧ Canonical 10 r) ∧
      (∃ t r, bigint.post_inc 10 4 ⟨[9, 9, 9]⟩ = some (t, r) ∧ Canonical 10 t ∧ Canonical 10 r) ∧
      (∃ r, bigint.pre_dec 10 4 ⟨[9, 9, 9]⟩ = some r ∧ Canonical 10 r) ∧
      (∃ t r, bigint.post_dec 10 4 ⟨[9, 9, 9]⟩ = some (t, r) ∧ Canonical 10 t ∧ Canonical 10 r) ∧
      ((10 : Int) ≤ 1073741824 →
        (∃ r, bigint.add 10 4 ⟨[9, 9, 9]⟩ ⟨[1]⟩ = some r ∧ Canonical 10 r) ∧
        (∃ r, bigint.add_assign 10 4 ⟨[9, 9, 9]⟩ ⟨[1]⟩ = some r ∧ Canonical 10 r)) :=
  canonical_invariant 10 (by decide) (by decide) (cstr "00042") 4294967295 32 (by decide)
    (by decide) ⟨[9, 9, 9]⟩ ⟨[1]⟩ (by decide) (by decide) 4 (by decide)

/-- Every natural number has a canonical representation in every radix. -/
theorem exists_canonical {BASE : Int} (hB : 2 ≤ BASE) (n : Nat) :
    ∃ a, Canonical BASE a ∧ value BASE a.digits = n := by
  obtain ⟨b, hb⟩ : ∃ b : Nat, (b : Int) = BASE := ⟨BASE.toNat, Int.toNat_of_nonneg (by omega)⟩
  have hb2 : 2 ≤ b := by omega
  have hpos : ∀ m : Nat, 0 < m → ∃ ds : List Int, ds ≠ [] ∧ InRange BASE ds ∧
      ds.getLast? ≠ some 0 ∧ value BASE ds = m := by
    intro m
    induction m using Nat.strong_induction_on with
    | _ m ih =>
      intro hm
      by_cases hlt : m < b
      · refine ⟨[(m : Int)], by simp, ?_, ?_, by simp [value]⟩
        · intro d hd
          have : d = m := by simpa using hd
          subst this; omega
        · simp only [List.getLast?_singleton, ne_eq, Option.some.injEq]; omega
      · have hq0 : 0 < m / b := Nat.div_pos (by omega) (by omega)
        have hq1 : m / b < m := Nat.div_lt_self hm (by omega)
        obtain ⟨ds, h1, h2, h3, h4⟩ := ih (m / b) hq1 hq0
        have hmod : m % b < b := Nat.mod_lt _ (by omega)
        refine ⟨((m % b : Nat) : Int) :: ds, List.cons_ne_nil _ _, ?_, ?_, ?_⟩
        · intro d hd
          rcases List.mem_cons.mp hd with h | h
          · subst h; omega
          · exact h2 d h
        · obtain ⟨y, ys, rfl⟩ := List.exists_cons_of_ne_nil h1
          rw [List.getLast?_cons_cons]
          exact h3
        · simp only [value, h4]
          have := Nat.mod_add_div m b
          rw [← hb]
          exact_mod_cast this
  by_cases hn : n = 0
  · subst hn
    exact ⟨⟨[0]⟩, canonical_zero (by omega), by simp [value]⟩
  · obtain ⟨ds, h1, h2, h3, h4⟩ := hpos n (Nat.pos_of_ne_zero hn)
    exact ⟨⟨ds⟩, ⟨h1, h2, fun h => absurd h h3⟩, h4⟩

/-- C10: for every radix `BASE >= 2` and canonical `a`, `b`, `a == b` (equal digit
lists) holds if and only if `value(a) = value(b)`; and every natural number has
exactly one canonical representation. -/
theorem eq_is_numeric_equality (BASE : Int) (hB : 2 ≤ BASE) (a b : bigint)
    (ha : Canonical BASE a) (hb : Canonical BASE b) (n : Nat) :
    (a.eq b = true ↔ value BASE a.digits = value BASE b.digits) ∧
      (a.ne b = true ↔ value BASE a.digits ≠ value BASE b.digits) ∧
      (∃ c, (Canonical BASE c ∧ value BASE c.digits = n) ∧
        ∀ d, Canonical BASE d ∧ value BASE d.digits = n → d = c) := by
  have h1 : a.eq b = true ↔ value BASE a.digits = value BASE b.digits := by
    unfold bigint.eq
    rw [decide_eq_true_eq]
    constructor
    · intro h; rw [h]
    · intro h; rw [canonical_ext hB ha hb h]
  refine ⟨h1, ?_, ?_⟩
  · unfold bigint.ne
    rw [Bool.not_eq_true', ← Bool.not_eq_true, h1]
  · obtain ⟨c, hc1, hc2⟩ := exists_canonical hB n
    exact ⟨c, ⟨hc1, hc2⟩, fun d hd => canonical_ext hB hd.1 hc1 (by rw [hd.2, hc2])⟩

/-- C10, at `BASE = 10`: 1000 against itself, and the number 42. -/
theorem eq_is_numeric_equality_witness :
    (bigint.eq ⟨[0, 0, 0, 1]⟩ ⟨[0, 0, 0, 1]⟩ = true ↔ value 10 [0, 0, 0, 1] = value 10 [0, 0, 0, 1]) ∧
      (bigint.ne ⟨[0, 0, 0, 1]⟩ ⟨[0, 0, 0, 1]⟩ = true ↔ value 10 [0, 0, 0, 1] ≠ value 10 [0, 0, 0, 1]) ∧
      (∃ c, (Canonical 10 c ∧ value 10 c.digits = (42 : Nat)) ∧
        ∀ d, Canonical 10 d ∧ value 10 d.digits = (42 : Nat) → d = c) :=
  eq_is_numeric_equality 10 (by decide) ⟨[0, 0, 0, 1]⟩ ⟨[0, 0, 0, 1]⟩ (by decide) (by decide) 42

/-! ## Claims on the conversion to `unsigned int` -/

theorem toUInt_toNat {x : Int} (h0 : 0 ≤ x) (h1 : x ≤ 2147483647) : toUInt x = x.toNat := by
  unfold toUInt
  congr 1
  omega

/-- The fold of `operator unsigned int`, started from `acc`, on digits in range
listed from the most significant one. -/
theorem to_uint_fold {BASE : Int} (hB : 2 ≤ BASE) (hmax : BASE ≤ 2147483647) :
    ∀ (r : List Int) (acc : Nat), InRange BASE r → acc < 4294967296 →
      ((r.foldl (fun value d => ((value * toUInt BASE) % UINT_MOD + toUInt d) % UINT_MOD) acc
          : Nat) : Int)
        = ((acc : Int) * BASE ^ r.length + value BASE r.reverse) % 4294967296 := by
  have hBc := toUInt_of_range (x := BASE) (by omega) hmax
  intro r
  induction r with
  | nil =>
    intro acc _ hacc
    simp only [List.foldl_nil, List.length_nil, pow_zero, mul_one, List.reverse_nil, value,
      add_zero]
    omega
  | cons x xs ih =>
    intro acc hr hacc
    obtain ⟨hx, hxs⟩ := inRange_cons hr
    have hxc := toUInt_of_range (x := x) hx.1 (by omega)
    have hlt : ((acc * toUInt BASE) % UINT_MOD + toUInt x) % UINT_MOD < 4294967296 :=
      Nat.mod_lt _ (by unfold UINT_MOD; norm_num)
    rw [List.foldl_cons, ih _ hxs hlt, value_reverse_cons, List.length_cons, pow_succ]
    have hstep : (((acc * toUInt BASE) % UINT_MOD + toUInt x) % UINT_MOD : Nat)
        = (((acc : Int) * BASE + x) % 4294967296 : Int) := by
      unfold UINT_MOD
      push_cast
      rw [hBc, hxc, Int.emod_add_emod]
    rw [hstep]
    have h1 : (((acc : Int) * BASE + x) % 4294967296 * BASE ^ xs.length
        + value BASE xs.reverse) % 4294967296
        = (((acc : Int) * BASE + x) * BASE ^ xs.length + value BASE xs.reverse) % 4294967296 :=
      Int.ModEq.add_right _ (Int.ModEq.mul_right _ (Int.mod_modEq _ _))
    rw [h1]
    congr 1
    ring

/-- The conversion returns the value reduced modulo `2^32`. -/
theorem to_uint_eq_value_mod {BASE : Int} (hB : 2 ≤ BASE) (hmax : BASE ≤ 2147483647)
    {a : bigint} (ha : InRange BASE a.digits) :
    ((bigint.to_uint BASE a : Nat) : Int) = value BASE a.digits % 4294967296 := by
  unfold bigint.to_uint
  rw [to_uint_fold hB hmax a.digits.reverse 0 (inRange_reverse ha) (by norm_num)]
  simp

theorem to_uint_lt (BASE : Int) (a : bigint) : bigint.to_uint BASE a < 4294967296 := by
  unfold bigint.to_uint
  generalize a.digits.reverse = r
  induction r using List.reverseRecOn with
  | nil => simp
  | append_singleton xs x _ =>
    rw [List.foldl_append, List.foldl_cons, List.foldl_nil]
    exact Nat.mod_lt _ (by unfold UINT_MOD; norm_num)

/-- C12: for every radix `BASE >= 2` (an `int`) and every unsigned `x < 2^32`,
the unsigned constructor returns the canonical digit list of `x` (its value is
`x`, and `x = 0` gives `[0]`), and the conversion back to `unsigned int` returns
`x`. -/
theorem uint_round_trip (BASE : Int) (hB : 2 ≤ BASE) (hmax : BASE ≤ INT_MAX)
    (x fuel : Nat) (hx : x < 4294967296) (hf : 32 ≤ fuel) :
    ∃ a, bigint.ofUInt BASE fuel x = some a ∧ Canonical BASE a ∧
      value BASE a.digits = x ∧ (x = 0 → a = ⟨[0]⟩) ∧ bigint.to_uint BASE a = x := by
  unfold INT_MAX at hmax
  obtain ⟨a, h1, h2, h3, _⟩ := ofUInt_spec hB hmax hf hx
  refine ⟨a, h1, h2, h3, ?_, ?_⟩
  · intro h0
    subst h0
    rw [ofUInt_zero] at h1
    exact (Option.some.inj h1).symm
  · have h := to_uint_eq_value_mod hB hmax h2.2.1
    rw [h3] at h
    omega

/-- C12, at `BASE = 10`, on the value 4294967295. -/
theorem uint_round_trip_witness :
    ∃ a, bigint.ofUInt 10 32 4294967295 = some a ∧ Canonical 10 a ∧
      value 10 a.digits = (4294967295 : Nat) ∧ (4294967295 = 0 → a = ⟨[0]⟩) ∧
      bigint.to_uint 10 a = 4294967295 :=
  uint_round_trip 10 (by decide) (by decide) 4294967295 32 (by decide) (by decide)

/-- C13: for every radix `BASE >= 2` (an `int`) and every bigint `a` with digits in
`[0, BASE)`, the conversion to `unsigned int` returns `value(a) mod 2^32`; it is
the fold `value = value * BASE + digit` from the most significant digit, each
step reduced modulo `2^32`; the result is below `2^32`, and it is `value(a)`
itself exactly when `value(a) < 2^32`. -/
theorem to_uint_wraps (BASE : Int) (hB : 2 ≤ BASE) (hmax : BASE ≤ INT_MAX)
    (a : bigint) (ha : InRange BASE a.digits) (d : Int) (hd0 : 0 ≤ d) (hd1 : d < BASE) :
    ((bigint.to_uint BASE a : Nat) : Int) = value BASE a.digits % 4294967296 ∧
      bigint.to_uint BASE ⟨[]⟩ = 0 ∧
      bigint.to_uint BASE ⟨d :: a.digits⟩
        = (bigint.to_uint BASE a * BASE.toNat + d.toNat) % 4294967296 ∧
      bigint.to_uint BASE a < 4294967296 ∧
      (((bigint.to_uint BASE a : Nat) : Int) = value BASE a.digits
        ↔ value BASE a.digits < 4294967296) := by
  unfold INT_MAX at hmax
  have hmod := to_uint_eq_value_mod hB hmax ha
  have hlt := to_uint_lt BASE a
  have hnn := value_nonneg (by omega : (0 : Int) < BASE) ha
  refine ⟨hmod, rfl, ?_, hlt, ?_⟩
  · unfold bigint.to_uint
    simp only [List.reverse_cons, List.foldl_append, List.foldl_cons, List.foldl_nil]
    rw [toUInt_toNat (by omega) hmax, toUInt_toNat hd0 (by omega)]
    unfold UINT_MOD
    rw [Nat.mod_add_mod]
  · constructor
    · intro h; omega
    · intro h
      rw [hmod]
      exact Int.emod_eq_of_lt hnn h

/-- C13, at `BASE = 10`, on the digit list of 4294967296 (which converts to 0)
and the digit 5 put below it. -/
theorem to_uint_wraps_witness :
    ((bigint.to_uint 10 ⟨[6, 9, 2, 7, 6, 9, 4, 9, 2, 4]⟩ : Nat) : Int)
        = value 10 [6, 9, 2, 7, 6, 9, 4, 9, 2, 4] % 4294967296 ∧
      bigint.to_uint 10 ⟨[]⟩ = 0 ∧
      bigint.to_uint 10 ⟨5 :: [6, 9, 2, 7, 6, 9, 4, 9, 2, 4]⟩
        = (bigint.to_uint 10 ⟨[6, 9, 2, 7, 6, 9, 4, 9, 2, 4]⟩ * (10 : Int).toNat
            + (5 : Int).toNat) % 4294967296 ∧
      bigint.to_uint 10 ⟨[6, 9, 2, 7, 6, 9, 4, 9, 2, 4]⟩ < 4294967296 ∧
      (((bigint.to_uint 10 ⟨[6, 9, 2, 7, 6, 9, 4, 9, 2, 4]⟩ : Nat) : Int)
          = value 10 [6, 9, 2, 7, 6, 9, 4, 9, 2, 4]
        ↔ value 10 [6, 9, 2, 7, 6, 9, 4, 9, 2, 4] < 4294967296) :=
  to_uint_wraps 10 (by decide) (by decide) ⟨[6, 9, 2, 7, 6, 9, 4, 9, 2, 4]⟩ (by decide)
    5 (by decide) (by decide)

/-! ## Claims on comparison with an `unsigned int` -/

theorem eq_iff_value_eq {BASE : Int} (hB : 2 ≤ BASE) {a b : bigint}
    (ha : Canonical BASE a) (hb : Canonical BASE b) :
    a.eq b = true ↔ value BASE a.digits = value BASE b.digits := by
  unfold bigint.eq
  rw [decide_eq_true_eq]
  constructor
  · intro h; rw [h]
  · intro h; rw [canonical_ext hB ha hb h]

/-- On canonical operands whose values are the naturals `x` and `y`, the six
comparison operators return what the comparison of `x` and `y` returns. -/
theorem compare_of_values {BASE : Int} (hB : 2 ≤ BASE) {p q : bigint}
    (hp : Canonical BASE p) (hq : Canonical BASE q) {x y : Nat}
    (hx : value BASE p.digits = x) (hy : value BASE q.digits = y)
    (hsize : p.digits.length ≤ 2147483648) :
    p.eq q = decide (x = y) ∧ p.ne q = decide (x ≠ y) ∧ p.lt q = decide (x < y) ∧
      p.le q = decide (x ≤ y) ∧ p.gt q = decide (x > y) ∧ p.ge q = decide (x ≥ y) := by
  have heq : p.eq q = decide (x = y) := by
    rw [Bool.eq_iff_iff, eq_iff_value_eq hB hp hq, hx, hy, decide_eq_true_eq]
    exact Nat.cast_inj
  have hlt : p.lt q = decide (x < y) := by
    rw [Bool.eq_iff_iff, lt_iff_value_lt hB hp hq (Or.inr hsize), hx, hy, decide_eq_true_eq]
    exact Nat.cast_lt
  refine ⟨heq, ?_, hlt, ?_, ?_, ?_⟩
  · unfold bigint.ne
    rw [heq, Bool.eq_iff_iff]
    simp
  · unfold bigint.le
    rw [heq, hlt, Bool.eq_iff_iff]
    simp only [Bool.or_eq_true, decide_eq_true_eq]
    omega
  · unfold bigint.gt bigint.le
    rw [heq, hlt, Bool.eq_iff_iff]
    simp only [Bool.not_eq_true', Bool.or_eq_false_iff, decide_eq_false_iff_not,
      decide_eq_true_eq]
    omega
  · unfold bigint.ge
    rw [hlt, Bool.eq_iff_iff]
    simp only [Bool.not_eq_true', decide_eq_false_iff_not, decide_eq_true_eq]
    omega

/-- C11: for every radix `BASE >= 2` (an `int`), all unsigned `x, y < 2^32` and
each operator among `==`, `!=`, `<`, `<=`, `>`, `>=`, the mixed forms
`bigint(x) op y` and `x op bigint(y)` and the form `bigint(x) op bigint(y)` all
return the truth value of the native comparison `x op y`. -/
theorem uint_comparisons_agree (BASE : Int) (hB : 2 ≤ BASE) (hmax : BASE ≤ INT_MAX)
    (x y fuel : Nat) (hx : x < 4294967296) (hy : y < 4294967296) (hf : 32 ≤ fuel) :
    ∃ p q, bigint.ofUInt BASE fuel x = some p ∧ bigint.ofUInt BASE fuel y = some q ∧
      (bigint.eq_bigint_uint BASE fuel p y = some (decide (x = y)) ∧
        bigint.eq_uint_bigint BASE fuel x q = some (decide (x = y)) ∧
        p.eq q = decide (x = y)) ∧
      (bigint.ne_bigint_uint BASE fuel p y = some (decide (x ≠ y)) ∧
        bigint.ne_uint_bigint BASE fuel x q = some (decide (x ≠ y)) ∧
        p.ne q = decide (x ≠ y)) ∧
      (bigint.lt_bigint_uint BASE fuel p y = some (decide (x < y)) ∧
        bigint.lt_uint_bigint BASE fuel x q = some (decide (x < y)) ∧
        p.lt q = decide (x < y)) ∧
      (bigint.le_bigint_uint BASE fuel p y = some (decide (x ≤ y)) ∧
        bigint.le_uint_bigint BASE fuel x q = some (decide (x ≤ y)) ∧
        p.le q = decide (x ≤ y)) ∧
      (bigint.gt_bigint_uint BASE fuel p y = some (decide (x > y)) ∧
        bigint.gt_uint_bigint BASE fuel x q = some (decide (x > y)) ∧
        p.gt q = decide (x > y)) ∧
      (bigint.ge_bigint_uint BASE fuel p y = some (decide (x ≥ y)) ∧
        bigint.ge_uint_bigint BASE fuel x q = some (decide (x ≥ y)) ∧
        p.ge q = decide (x ≥ y)) := by
  unfold INT_MAX at hmax
  obtain ⟨p, hp1, hp2, hp3, hp4⟩ := ofUInt_spec hB hmax hf hx
  obtain ⟨q, hq1, hq2, hq3, _⟩ := ofUInt_spec hB hmax hf hy
  obtain ⟨h1, h2, h3, h4, h5, h6⟩ := compare_of_values hB hp2 hq2 hp3 hq3 (by omega)
  refine ⟨p, q, hp1, hq1, ⟨?_, ?_, h1⟩, ⟨?_, ?_, h2⟩, ⟨?_, ?_, h3⟩, ⟨?_, ?_, h4⟩,
    ⟨?_, ?_, h5⟩, ⟨?_, ?_, h6⟩⟩
  · simp [bigint.eq_bigint_uint, hq1, h1]
  · simp [bigint.eq_uint_bigint, hp1, h1]
  · simp only [bigint.ne_bigint_uint, bigint.eq_bigint_uint, hq1, Option.map_some', h1]
    simp
  · simp only [bigint.ne_uint_bigint, bigint.eq_uint_bigint, hp1, Option.map_some', h1]
    simp
  · simp [bigint.lt_bigint_uint, hq1, h3]
  · simp [bigint.lt_uint_bigint, hp1, h3]
  · simp [bigint.le_bigint_uint, hq1, h4]
  · simp [bigint.le_uint_bigint, hp1, h4]
  · simp [bigint.gt_bigint_uint, hq1, h5]
  · simp [bigint.gt_uint_bigint, hp1, h5]
  · simp [bigint.ge_bigint_uint, hq1, h6]
  · simp [bigint.ge_uint_bigint, hp1, h6]

/-- C11, at `BASE = 10`, on 99 and 4294967295. -/
theorem uint_comparisons_agree_witness :
    ∃ p q, bigint.ofUInt 10 32 99 = some p ∧ bigint.ofUInt 10 32 4294967295 = some q ∧
      (bigint.eq_bigint_uint 10 32 p 4294967295 = some (decide (99 = 4294967295)) ∧
        bigint.eq_uint_bigint 10 32 99 q = some (decide (99 = 4294967295)) ∧
        p.eq q = decide (99 = 4294967295)) ∧
      (bigint.ne_bigint_uint 10 32 p 4294967295 = some (decide (99 ≠ 4294967295)) ∧
        bigint.ne_uint_bigint 10 32 99 q = some (decide (99 ≠ 4294967295)) ∧
        p.ne q = decide (99 ≠ 4294967295)) ∧
      (bigint.lt_bigint_uint 10 32 p 4294967295 = some (decide (99 < 4294967295)) ∧
        bigint.lt_uint_bigint 10 32 99 q = some (decide (99 < 4294967295)) ∧
        p.lt q = decide (99 < 4294967295)) ∧
      (bigint.le_bigint_uint 10 32 p 4294967295 = some (decide (99 ≤ 4294967295)) ∧
        bigint.le_uint_bigint 10 32 99 q = some (decide (99 ≤ 4294967295)) ∧
        p.le q = decide (99 ≤ 4294967295)) ∧
      (bigint.gt_bigint_uint 10 32 p 4294967295 = some (decide (99 > 4294967295)) ∧
        bigint.gt_uint_bigint 10 32 99 q = some (decide (99 > 4294967295)) ∧
        p.gt q = decide (99 > 4294967295)) ∧
      (bigint.ge_bigint_uint 10 32 p 4294967295 = some (decide (99 ≥ 4294967295)) ∧
        bigint.ge_uint_bigint 10 32 99 q = some (decide (99 ≥ 4294967295)) ∧
        p.ge q = decide (99 ≥ 4294967295)) :=
  uint_comparisons_agree 10 (by decide) (by decide) 99 4294967295 32 (by decide) (by decide)
    (by decide)

/-! ## Claims on increment and decrement -/

/-- C14: for every radix `BASE >= 2` (an `int`) and canonical `a` with value `n`
(of any size), pre-increment returns the new receiver, whose value is `n + 1`;
post-increment leaves a receiver of value `n + 1` and returns the digit list `a`
had before. -/
theorem increment_adds_one (BASE : Int) (hB : 2 ≤ BASE) (hmax : BASE ≤ INT_MAX)
    (a : bigint) (ha : Canonical BASE a) (fuel : Nat) (hf : a.digits.length + 1 ≤ fuel) :
    ∃ r, bigint.pre_inc BASE fuel a = some r ∧
      bigint.post_inc BASE fuel a = some (a, r) ∧
      Canonical BASE r ∧ value BASE r.digits = value BASE a.digits + 1 := by
  unfold INT_MAX at hmax
  obtain ⟨r, h1, h2, h3⟩ := pre_inc_spec hB hmax ha hf
  exact ⟨r, h1, by simp [bigint.post_inc, h1], h2, h3⟩

/-- C14, at `BASE = 10`, on 4294967295, whose successor does not fit in
`unsigned int`. -/
theorem increment_adds_one_witness :
    ∃ r, bigint.pre_inc 10 11 ⟨[5, 9, 2, 7, 6, 9, 4, 9, 2, 4]⟩ = some r ∧
      bigint.post_inc 10 11 ⟨[5, 9, 2, 7, 6, 9, 4, 9, 2, 4]⟩
        = some (⟨[5, 9, 2, 7, 6, 9, 4, 9, 2, 4]⟩, r) ∧
      Canonical 10 r ∧
      value 10 r.digits = value 10 [5, 9, 2, 7, 6, 9, 4, 9, 2, 4] + 1 :=
  increment_adds_one 10 (by decide) (by decide) ⟨[5, 9, 2, 7, 6, 9, 4, 9, 2, 4]⟩ (by decide)
    11 (by decide)

/-- C15: for every radix `BASE >= 2` (an `int`) and canonical `a` with value `n`,
pre-decrement and post-decrement leave a receiver of value `n - 1` when
`n >= 1`, and the receiver `[0]` when `n = 0` (then `a` itself is `[0]`);
post-decrement returns the digit list `a` had before. -/
theorem decrement_saturates (BASE : Int) (hB : 2 ≤ BASE) (hmax : BASE ≤ INT_MAX)
    (a : bigint) (ha : Canonical BASE a) (fuel : Nat) (hf : 1 ≤ fuel) :
    ∃ r, bigint.pre_dec BASE fuel a = some r ∧
      bigint.post_dec BASE fuel a = some (a, r) ∧
      Canonical BASE r ∧
      (1 ≤ value BASE a.digits → value BASE r.digits = value BASE a.digits - 1) ∧
      (value BASE a.digits = 0 → a = ⟨[0]⟩ ∧ r = ⟨[0]⟩) := by
  unfold INT_MAX at hmax
  obtain ⟨h1, h2⟩ := pre_dec_spec hB hmax ha hf
  have hone : Canonical BASE ⟨[1]⟩ := ⟨by simp, inRange_one hB, by simp⟩
  have hv1 : value BASE (bigint.mk [1]).digits = 1 := by simp [value]
  refine ⟨_, h1, by simp [bigint.post_dec, h1], h2, ?_, ?_⟩
  · intro hge
    have hsize : a.digits.length ≠ (bigint.mk [1]).digits.length ∨
        a.digits.length ≤ 4294967296 := by
      by_cases h : a.digits.length = (bigint.mk [1]).digits.length
      · right; rw [h]; simp
      · left; exact h
    have := (sub_spec hB hmax ha hone).2 (by rw [hv1]; exact hge) hsize
    rw [this, hv1]
  · intro h0
    refine ⟨canonical_ext hB ha (canonical_zero (by omega)) (by rw [h0]; simp [value]), ?_⟩
    have hsize : a.digits.length ≠ (bigint.mk [1]).digits.length ∨
        a.digits.length ≤ 2147483648 := by
      by_cases h : a.digits.length = (bigint.mk [1]).digits.length
      · right; rw [h]; simp
      · left; exact h
    exact sub_of_value_lt hB ha hone (by rw [h0, hv1]; norm_num) hsize

/-- C15, at `BASE = 10`, on zero. -/
theorem decrement_saturates_witness :
    ∃ r, bigint.pre_dec 10 1 ⟨[0]⟩ = some r ∧
      bigint.post_dec 10 1 ⟨[0]⟩ = some (⟨[0]⟩, r) ∧
      Canonical 10 r ∧
      (1 ≤ value 10 [0] → value 10 r.digits = value 10 [0] - 1) ∧
      (value 10 [0] = 0 → (⟨[0]⟩ : bigint) = ⟨[0]⟩ ∧ r = ⟨[0]⟩) :=
  decrement_saturates 10 (by decide) (by decide) ⟨[0]⟩ (by decide) 1 (by decide)

/-! ## Claims on the order of digit lists -/

theorem wrapInt_bounds (x : Int) : -2147483648 ≤ wrapInt x ∧ wrapInt x ≤ 2147483647 := by
  unfold wrapInt; omega

theorem addRun_preserves (BASE : Int) (a b : bigint) (P : AddState → Prop)
    (hstep : ∀ s, P s → addCond a b s = true → P (addBody BASE a b s)) :
    ∀ (k : Nat) (s : AddState), P s → P (addRun BASE a b k s) := by
  intro k
  induction k with
  | zero => intro s hs; exact hs
  | succ n ih =>
    intro s hs
    by_cases hc : addCond a b s = true
    · simp only [addRun, hc, if_true]
      exact ih _ (hstep s hs hc)
    · simp only [addRun, hc, Bool.false_eq_true, if_false]
      exact hs

theorem addRun_stable (BASE : Int) (a b : bigint) :
    ∀ (k j : Nat) (s : AddState), addCond a b (addRun BASE a b k s) = false →
      addRun BASE a b (k + j) s = addRun BASE a b k s := by
  intro k
  induction k with
  | zero =>
    intro j s h
    simp only [addRun] at h
    cases j with
    | zero => rfl
    | succ m => simp [addRun, h]
  | succ n ih =>
    intro j s h
    rw [show n + 1 + j = (n + j) + 1 by omega]
    by_cases hc : addCond a b s = true
    · simp only [addRun, hc, if_true] at h ⊢
      exact ih j _ h
    · simp only [addRun, hc, Bool.false_eq_true, if_false]

/-- With enough fuel the loop of `operator+` returns the state that `addRun`
reaches, and the loop condition is false there; stated for any invariant `P`
that fixes the length of the result and clears the carry past `maxSize`. -/
theorem addLoop_eq_addRun (BASE : Int) (a b : bigint) (P : AddState → Prop)
    (hstep : ∀ s, P s → addCond a b s = true → P (addBody BASE a b s))
    (hlen : ∀ s, P s → s.result.length = s.i)
    (hlast : ∀ s, P s → max a.digits.length b.digits.length < s.i → s.carry = 0) :
    ∀ (fuel : Nat) (s : AddState), P s →
      max a.digits.length b.digits.length + 1 - s.i ≤ fuel →
      addLoop BASE a b fuel s = some (addRun BASE a b fuel s) ∧
        addCond a b (addRun BASE a b fuel s) = false := by
  intro fuel
  induction fuel with
  | zero =>
    intro s hs hf
    have h0 := hlast s hs (by omega)
    have hc : addCond a b s = false := (addCond_false_iff a b s).mpr ⟨by omega, h0⟩
    exact ⟨by simp [addLoop, addRun, hc], by simpa [addRun] using hc⟩
  | succ n ih =>
    intro s hs hf
    by_cases hc : addCond a b s = true
    · have hi : (addBody BASE a b s).i = s.i + 1 := by
        rw [addBody_eq BASE a b s (hlen s hs)]
      obtain ⟨h1, h2⟩ := ih (addBody BASE a b s) (hstep s hs hc) (by rw [hi]; omega)
      exact ⟨by simp [addLoop, addRun, hc, h1], by simpa [addRun, hc] using h2⟩
    · have hc' : addCond a b s = false := by simpa using hc
      exact ⟨by simp [addLoop, addRun, hc'], by simp [addRun, hc']⟩

theorem addBounds_of_addInv {BASE : Int} {a b : bigint} {s : AddState}
    (h : AddInv BASE a b s) : AddBounds a b s where
  len := h.len
  carry_lo := by rcases h.carry01 with e | e <;> omega
  carry_hi := by rcases h.carry01 with e | e <;> omega
  carry_last := h.carry_last
  bound := h.bound

/-- Above `2^30` a digit sum can overflow, but the stored sum is still an `int`,
so its quotient by `BASE` is `-1`, `0` or `1`, and the loop still stops one
iteration after the last digit. -/
theorem addBounds_step {BASE : Int} (hB30 : 1073741824 < BASE) (a b : bigint)
    (s : AddState) (hs : AddBounds a b s) (hc : addCond a b s = true) :
    AddBounds a b (addBody BASE a b s) := by
  have hi : s.i ≤ max a.digits.length b.digits.length := by
    by_contra hcon
    have h0 := hs.carry_last (by omega)
    have : addCond a b s = false := (addCond_false_iff a b s).mpr ⟨by omega, h0⟩
    rw [this] at hc; exact Bool.noConfusion hc
  have hdb : -2147483648 ≤ addDigit a b s.i s.carry ∧ addDigit a b s.i s.carry ≤ 2147483647 := by
    unfold addDigit
    exact wrapInt_bounds _
  have hq : (Int.tdiv (addDigit a b s.i s.carry) BASE).natAbs ≤ 1 := by
    rw [Int.natAbs_tdiv]
    have h1 : (addDigit a b s.i s.carry).natAbs ≤ 2147483648 := by omega
    have h2 : 1073741825 ≤ BASE.natAbs := by omega
    have h3 : (addDigit a b s.i s.carry).natAbs / BASE.natAbs
        ≤ (addDigit a b s.i s.carry).natAbs / 1073741825 :=
      Nat.div_le_div_left h2 (by norm_num)
    have h4 : (addDigit a b s.i s.carry).natAbs / 1073741825 ≤ 1 := by omega
    exact le_trans h3 h4
  have hw : wrapInt (Int.tdiv (addDigit a b s.i s.carry) BASE)
      = Int.tdiv (addDigit a b s.i s.carry) BASE := wrapInt_of_range (by omega) (by omega)
  rw [addBody_eq BASE a b s hs.len, hw]
  refine ⟨by simp [hs.len], ?_, ?_, ?_, ?_⟩
  · show -1 ≤ Int.tdiv _ _
    omega
  · show Int.tdiv _ _ ≤ 1
    omega
  · intro h
    show Int.tdiv _ _ = 0
    have hmax : max a.digits.length b.digits.length ≤ s.i := by
      have : max a.digits.length b.digits.length < s.i + 1 := h
      omega
    have h1 : ¬s.i < a.digits.length := by
      have := le_max_left a.digits.length b.digits.length; omega
    have h2 : ¬s.i < b.digits.length := by
      have := le_max_right a.digits.length b.digits.length; omega
    have hd : addDigit a b s.i s.carry = s.carry := by
      unfold addDigit
      simp only [h1, h2, if_false, zero_add]
      exact wrapInt_of_range (by have := hs.carry_lo; omega) (by have := hs.carry_hi; omega)
    rw [hd]
    apply Int.natAbs_eq_zero.mp
    rw [Int.natAbs_tdiv]
    have hlo := hs.carry_lo
    have hhi := hs.carry_hi
    exact Nat.div_eq_of_lt (by omega)
  · show s.i + 1 ≤ _
    omega

/-- C17, at the radix `2^30 + 1`: the digits of `[2^30]` lie in `[0, BASE)`, and
after the first iteration of the loop of `operator+` on `[2^30] + [2^30]` the
carry is `-1`. -/
theorem add_carry_overflow_counterexample :
    InRange 1073741825 [1073741824] ∧
      (addRun 1073741825 ⟨[1073741824]⟩ ⟨[1073741824]⟩ 1 ⟨0, 0, []⟩).carry = -1 := by
  decide

/-- C17 (amended): for every radix `BASE >= 2` and all bigints `a`, `b`
whose digits lie in `[0, BASE)`: after every iteration `k` the carry is `-1`, 0
or 1, and it is 0 or 1 when `BASE <= 2^30`; after at most
`max(len a, len b) + 1` iterations the carry is 0 and the loop condition is
false, so that with that much fuel the loop returns; and the untrimmed result
has length `max(len a, len b)` or `max(len a, len b) + 1`. -/
theorem add_loop_terminates (BASE : Int) (hB : 2 ≤ BASE)
    (a b : bigint) (ha : InRange BASE a.digits) (hb : InRange BASE b.digits)
    (k fuel : Nat) (hf : max a.digits.length b.digits.length + 1 ≤ fuel) :
    (-1 ≤ (addRun BASE a b k ⟨0, 0, []⟩).carry ∧ (addRun BASE a b k ⟨0, 0, []⟩).carry ≤ 1) ∧
      (BASE ≤ 1073741824 → (addRun BASE a b k ⟨0, 0, []⟩).carry = 0 ∨
        (addRun BASE a b k ⟨0, 0, []⟩).carry = 1) ∧
      (addRun BASE a b (max a.digits.length b.digits.length + 1) ⟨0, 0, []⟩).carry = 0 ∧
      addCond a b (addRun BASE a b (max a.digits.length b.digits.length + 1) ⟨0, 0, []⟩)
        = false ∧
      (addRun BASE a b (max a.digits.length b.digits.length + 1) ⟨0, 0, []⟩).i
        ≤ max a.digits.length b.digits.length + 1 ∧
      addLoop BASE a b fuel ⟨0, 0, []⟩
        = some (addRun BASE a b (max a.digits.length b.digits.length + 1) ⟨0, 0, []⟩) ∧
      ((addRun BASE a b (max a.digits.length b.digits.length + 1) ⟨0, 0, []⟩).result.length
          = max a.digits.length b.digits.length ∨
        (addRun BASE a b (max a.digits.length b.digits.length + 1) ⟨0, 0, []⟩).result.length
          = max a.digits.length b.digits.length + 1) := by
  have hinit := addInv_init BASE a b
  -- the bounds hold after every number of iterations, whatever the radix
  have hbounds : ∀ j, AddBounds a b (addRun BASE a b j ⟨0, 0, []⟩) := by
    intro j
    by_cases h30 : BASE ≤ 1073741824
    · exact addBounds_of_addInv (addRun_preserves BASE a b (AddInv BASE a b)
        (fun s hs hc => addInv_step hB ha hb (addFits_of_base hB h30 ha hb) hs hc) j _ hinit)
    · exact addRun_preserves BASE a b (AddBounds a b)
        (addBounds_step (by omega) a b) j _ (addBounds_of_addInv hinit)
  have hloop : ∀ fuel', max a.digits.length b.digits.length + 1 ≤ fuel' →
      addLoop BASE a b fuel' ⟨0, 0, []⟩ = some (addRun BASE a b fuel' ⟨0, 0, []⟩) ∧
        addCond a b (addRun BASE a b fuel' ⟨0, 0, []⟩) = false := by
    intro fuel' hf'
    by_cases h30 : BASE ≤ 1073741824
    · exact addLoop_eq_addRun BASE a b (AddInv BASE a b)
        (fun s hs hc => addInv_step hB ha hb (addFits_of_base hB h30 ha hb) hs hc)
        (fun s hs => hs.len) (fun s hs => hs.carry_last) fuel' _ hinit (by simpa using hf')
    · exact addLoop_eq_addRun BASE a b (AddBounds a b) (addBounds_step (by omega) a b)
        (fun s hs => hs.len) (fun s hs => hs.carry_last) fuel' _ (addBounds_of_addInv hinit)
        (by simpa using hf')
  obtain ⟨_, h2⟩ := hloop _ (le_refl _)
  obtain ⟨h3, _⟩ := hloop fuel hf
  have hstable := addRun_stable BASE a b (max a.digits.length b.digits.length + 1)
    (fuel - (max a.digits.length b.digits.length + 1)) ⟨0, 0, []⟩ h2
  rw [show max a.digits.length b.digits.length + 1
      + (fuel - (max a.digits.length b.digits.length + 1)) = fuel by omega] at hstable
  have hfin := hbounds (max a.digits.length b.digits.length + 1)
  obtain ⟨hge, hcar⟩ := (addCond_false_iff a b _).mp h2
  refine ⟨⟨(hbounds k).carry_lo, (hbounds k).carry_hi⟩, ?_, hcar, h2, hfin.bound,
    by rw [h3, hstable], ?_⟩
  · intro h30
    exact (addRun_preserves BASE a b (AddInv BASE a b)
      (fun s hs hc => addInv_step hB ha hb (addFits_of_base hB h30 ha hb) hs hc)
      k _ hinit).carry01
  · have hlen := hfin.len
    have hbound := hfin.bound
    omega

/-- C17 (amended), at `BASE = 10`, on `999 + 1`, after 2 iterations. -/
theorem add_loop_terminates_witness :
    (-1 ≤ (addRun 10 ⟨[9, 9, 9]⟩ ⟨[1]⟩ 2 ⟨0, 0, []⟩).carry ∧
        (addRun 10 ⟨[9, 9, 9]⟩ ⟨[1]⟩ 2 ⟨0, 0, []⟩).carry ≤ 1) ∧
      ((10 : Int) ≤ 1073741824 → (addRun 10 ⟨[9, 9, 9]⟩ ⟨[1]⟩ 2 ⟨0, 0, []⟩).carry = 0 ∨
        (addRun 10 ⟨[9, 9, 9]⟩ ⟨[1]⟩ 2 ⟨0, 0, []⟩).carry = 1) ∧
      (addRun 10 ⟨[9, 9, 9]⟩ ⟨[1]⟩ (max 3 1 + 1) ⟨0, 0, []⟩).carry = 0 ∧
      addCond ⟨[9, 9, 9]⟩ ⟨[1]⟩ (addRun 10 ⟨[9, 9, 9]⟩ ⟨[1]⟩ (max 3 1 + 1) ⟨0, 0, []⟩) = false ∧
      (addRun 10 ⟨[9, 9, 9]⟩ ⟨[1]⟩ (max 3 1 + 1) ⟨0, 0, []⟩).i ≤ max 3 1 + 1 ∧
      addLoop 10 ⟨[9, 9, 9]⟩ ⟨[1]⟩ 7 ⟨0, 0, []⟩
        = some (addRun 10 ⟨[9, 9, 9]⟩ ⟨[1]⟩ (max 3 1 + 1) ⟨0, 0, []⟩) ∧
      ((addRun 10 ⟨[9, 9, 9]⟩ ⟨[1]⟩ (max 3 1 + 1) ⟨0, 0, []⟩).result.length = max 3 1 ∨
        (addRun 10 ⟨[9, 9, 9]⟩ ⟨[1]⟩ (max 3 1 + 1) ⟨0, 0, []⟩).result.length = max 3 1 + 1) :=
  add_loop_terminates 10 (by decide) ⟨[9, 9, 9]⟩ ⟨[1]⟩ (by decide) (by decide) 2 7 (by decide)

/-! ## Addition on arbitrary digit lists: commutativity and termination -/

theorem addDigit_comm (a b : bigint) (i : Nat) (carry : Int) :
    addDigit a b i carry = addDigit b a i carry := by
  unfold addDigit
  unfold wrapInt
  by_cases h1 : i < a.digits.length <;> by_cases h2 : i < b.digits.length
  · simp only [h1, h2, if_true]; omega
  · simp only [h1, h2, if_true, if_false]
  · simp only [h1, h2, if_true, if_false]
  · simp only [h1, h2, if_false]

theorem addCond_comm (a b : bigint) (s : AddState) : addCond a b s = addCond b a s := by
  unfold addCond
  rw [max_comm]

theorem addBody_comm (BASE : Int) (a b : bigint) (s : AddState)
    (hlen : s.result.length = s.i) : addBody BASE a b s = addBody BASE b a s := by
  rw [addBody_eq BASE a b s hlen, addBody_eq BASE b a s hlen, addDigit_comm]

theorem addLoop_comm (BASE : Int) (a b : bigint) :
    ∀ (fuel : Nat) (s : AddState), s.result.length = s.i →
      addLoop BASE a b fuel s = addLoop BASE b a fuel s := by
  intro fuel
  induction fuel with
  | zero => intro s _; simp only [addLoop, addCond_comm a b s]
  | succ n ih =>
    intro s hlen
    simp only [addLoop, addCond_comm a b s, addBody_comm BASE a b s hlen]
    by_cases hc : addCond b a s = true
    · simp only [hc, if_true]
      apply ih
      rw [addBody_eq BASE b a s hlen]
      simp [hlen]
    · simp only [hc, Bool.false_eq_true, if_false]

/-- Commutativity of `operator+` on arbitrary digit lists, for every radix and
every fuel. -/
theorem add_comm_list (BASE : Int) (fuel : Nat) (a b : bigint) :
    bigint.add BASE fuel a b = bigint.add BASE fuel b a := by
  unfold bigint.add
  rw [addLoop_comm BASE a b fuel ⟨0, 0, []⟩ rfl]

/-- Past the last digit of both operands the carry is divided by `BASE` at each
iteration, so the loop of `operator+` stops once the carry has drained. -/
theorem addLoop_drain {BASE : Int} (hB : 2 ≤ BASE) (a b : bigint) :
    ∀ (n fuel : Nat) (s : AddState), s.result.length = s.i →
      max a.digits.length b.digits.length ≤ s.i →
      -2147483648 ≤ s.carry → s.carry ≤ 2147483647 → s.carry.natAbs < 2 ^ n → n ≤ fuel →
      ∃ s', addLoop BASE a b fuel s = some s' := by
  intro n
  induction n with
  | zero =>
    intro fuel s _ hmax _ _ hn _
    have hc0 : s.carry = 0 := by
      have : s.carry.natAbs = 0 := by simpa using hn
      exact Int.natAbs_eq_zero.mp this
    have hc : addCond a b s = false := (addCond_false_iff a b s).mpr ⟨hmax, hc0⟩
    cases fuel <;> exact ⟨s, by simp [addLoop, hc]⟩
  | succ n ih =>
    intro fuel s hlen hmax hlo hhi hn hf
    obtain ⟨fuel, rfl⟩ : ∃ f, fuel = f + 1 := ⟨fuel - 1, by omega⟩
    by_cases hc : addCond a b s = true
    · have hd : addDigit a b s.i s.carry = s.carry := by
        have h1 : ¬s.i < a.digits.length := by
          have := le_max_left a.digits.length b.digits.length; omega
        have h2 : ¬s.i < b.digits.length := by
          have := le_max_right a.digits.length b.digits.length; omega
        unfold addDigit
        simp only [h1, h2, if_false, zero_add]
        exact wrapInt_of_range hlo hhi
      have hq : (Int.tdiv s.carry BASE).natAbs < 2 ^ n := by
        rw [Int.natAbs_tdiv]
        have hB2 : 2 ≤ BASE.natAbs := by omega
        have h1 : s.carry.natAbs / BASE.natAbs ≤ s.carry.natAbs / 2 :=
          Nat.div_le_div_left hB2 (by norm_num)
        have h2 : s.carry.natAbs / 2 < 2 ^ n :=
          Nat.div_lt_of_lt_mul (by rw [pow_succ] at hn; omega)
        exact lt_of_le_of_lt h1 h2
      have hqle : (Int.tdiv s.carry BASE).natAbs ≤ s.carry.natAbs / 2 := by
        rw [Int.natAbs_tdiv]
        exact Nat.div_le_div_left (by omega) (by norm_num)
      have hw : wrapInt (Int.tdiv s.carry BASE) = Int.tdiv s.carry BASE :=
        wrapInt_of_range (by omega) (by omega)
      have hbody := addBody_eq BASE a b s hlen
      rw [hd, hw] at hbody
      obtain ⟨s', hs'⟩ := ih fuel (addBody BASE a b s) (by rw [hbody]; simp [hlen])
        (by rw [hbody]; show _ ≤ s.i + 1; omega) (by rw [hbody]; show _ ≤ Int.tdiv _ _; omega)
        (by rw [hbody]; show Int.tdiv _ _ ≤ _; omega) (by rw [hbody]; exact hq) (by omega)
      exact ⟨s', by simp [addLoop, hc, hs']⟩
    · exact ⟨s, by simp [addLoop, hc]⟩

theorem addLoop_terminates {BASE : Int} (hB : 2 ≤ BASE) (a b : bigint) :
    ∀ (m fuel : Nat) (s : AddState), s.result.length = s.i →
      -2147483648 ≤ s.carry → s.carry ≤ 2147483647 →
      max a.digits.length b.digits.length - s.i ≤ m → m + 32 ≤ fuel →
      ∃ s', addLoop BASE a b fuel s = some s' := by
  intro m
  induction m with
  | zero =>
    intro fuel s hlen hlo hhi hm hf
    exact addLoop_drain hB a b 32 fuel s hlen (by omega) hlo hhi (by omega) (by omega)
  | succ m ih =>
    intro fuel s hlen hlo hhi hm hf
    obtain ⟨fuel, rfl⟩ : ∃ f, fuel = f + 1 := ⟨fuel - 1, by omega⟩
    by_cases hc : addCond a b s = true
    · have hbody := addBody_eq BASE a b s hlen
      have hwb := wrapInt_bounds (Int.tdiv (addDigit a b s.i s.carry) BASE)
      obtain ⟨s', hs'⟩ := ih fuel (addBody BASE a b s) (by rw [hbody]; simp [hlen])
        (by rw [hbody]; exact hwb.1) (by rw [hbody]; exact hwb.2)
        (by rw [hbody]; show _ - (s.i + 1) ≤ m; omega) (by omega)
      exact ⟨s', by simp [addLoop, hc, hs']⟩
    · exact ⟨s, by simp [addLoop, hc]⟩

/-- For every radix `BASE >= 2`, `operator+` returns on arbitrary digit lists:
`max(len a, len b) + 32` iterations are enough. -/
theorem add_terminates {BASE : Int} (hB : 2 ≤ BASE) (a b : bigint) {fuel : Nat}
    (hf : max a.digits.length b.digits.length + 32 ≤ fuel) :
    ∃ r, bigint.add BASE fuel a b = some r := by
  obtain ⟨s, hs⟩ := addLoop_terminates hB a b (max a.digits.length b.digits.length) fuel
    ⟨0, 0, []⟩ rfl (by norm_num) (by norm_num) (by simp) hf
  exact ⟨bigint.trim ⟨s.result⟩, by simp [bigint.add, hs]⟩

/-! ## Claims on addition against subtraction, plain `int` operands, and zero -/

theorem toUInt_neg {n : Int} (h0 : -2147483648 ≤ n) (h1 : n < 0) :
    toUInt n = (4294967296 + n).toNat := by
  unfold toUInt
  congr 1
  omega

/-- C19: for every radix `BASE >= 2` (an `int`), canonical `a` and `int` `n`: when
`n < 0`, the operand is promoted to `bigint(2^32 + n)`, so that `a + n` and
`n + a` are `a + bigint(2^32 + n)` and `a - n` is `a - bigint(2^32 + n)`, which
is `[0]` when `value(a) < 2^32 + n`; when `n >= 0`, the mixed forms are the
bigint operations with `bigint(n)`. The sums return within
`max(len a, 32) + 32` iterations. -/
theorem int_operand_wraps (BASE : Int) (hB : 2 ≤ BASE) (hmax : BASE ≤ INT_MAX)
    (a : bigint) (ha : Canonical BASE a) (n : Int) (hn0 : -2147483648 ≤ n)
    (hn1 : n ≤ 2147483647) (fuel : Nat) (hf : max a.digits.length 32 + 32 ≤ fuel) :
    (n < 0 → ∃ p s, bigint.ofUInt BASE fuel (4294967296 + n).toNat = some p ∧
        value BASE p.digits = 4294967296 + n ∧
        bigint.add BASE fuel a p = some s ∧
        bigint.add_bigint_int BASE fuel a n = some s ∧
        bigint.add_int_bigint BASE fuel n a = some s ∧
        bigint.sub_bigint_int BASE fuel a n = some (bigint.sub BASE a p) ∧
        (value BASE a.digits < 4294967296 + n →
          bigint.sub_bigint_int BASE fuel a n = some ⟨[0]⟩)) ∧
      (0 ≤ n → ∃ p s, bigint.ofUInt BASE fuel n.toNat = some p ∧
        value BASE p.digits = n ∧
        bigint.add BASE fuel a p = some s ∧
        bigint.add_bigint_int BASE fuel a n = some s ∧
        bigint.add_int_bigint BASE fuel n a = some s ∧
        bigint.sub_bigint_int BASE fuel a n = some (bigint.sub BASE a p) ∧
        bigint.sub_int_bigint BASE fuel n a = some (bigint.sub BASE p a)) := by
  unfold INT_MAX at hmax
  have hf32 : 32 ≤ fuel := le_trans (le_max_right a.digits.length 32) (by omega)
  have key : ∀ u : Nat, u < 4294967296 → toUInt n = u →
      ∃ p s, bigint.ofUInt BASE fuel u = some p ∧ Canonical BASE p ∧
        value BASE p.digits = u ∧
        bigint.add BASE fuel a p = some s ∧
        bigint.add_bigint_int BASE fuel a n = some s ∧
        bigint.add_int_bigint BASE fuel n a = some s ∧
        bigint.sub_bigint_int BASE fuel a n = some (bigint.sub BASE a p) ∧
        bigint.sub_int_bigint BASE fuel n a = some (bigint.sub BASE p a) ∧
        p.digits.length ≤ 32 := by
    intro u hu hun
    obtain ⟨p, h1, h2, h3, h4⟩ := ofUInt_spec hB hmax hf32 hu
    have hfa : max a.digits.length p.digits.length + 32 ≤ fuel := by
      have : max a.digits.length p.digits.length ≤ max a.digits.length 32 :=
        max_le_max (le_refl _) h4
      omega
    obtain ⟨s, hs⟩ := add_terminates hB a p hfa
    refine ⟨p, s, h1, h2, h3, hs, ?_, ?_, ?_, ?_, h4⟩
    · simp [bigint.add_bigint_int, hun, h1, hs]
    · simp [bigint.add_int_bigint, hun, h1, add_comm_list BASE fuel p a, hs]
    · simp [bigint.sub_bigint_int, hun, h1]
    · simp [bigint.sub_int_bigint, hun, h1]
  constructor
  · intro hneg
    obtain ⟨p, s, h1, h2, h3, h4, h5, h6, h7, _, hp32⟩ :=
      key (4294967296 + n).toNat (by omega) (toUInt_neg hn0 hneg)
    have h3' : value BASE p.digits = 4294967296 + n := by
      rw [h3]; exact Int.toNat_of_nonneg (by omega)
    refine ⟨p, s, h1, h3', h4, h5, h6, h7, ?_⟩
    intro hlt
    have hsize : a.digits.length ≠ p.digits.length ∨ a.digits.length ≤ 2147483648 := by
      by_cases he : a.digits.length = p.digits.length
      · right; omega
      · left; exact he
    rw [h7, sub_of_value_lt hB ha h2 (by rw [h3']; exact hlt) hsize]
  · intro hnn
    obtain ⟨p, s, h1, h2, h3, h4, h5, h6, h7, h8, _⟩ :=
      key n.toNat (by omega) (toUInt_toNat hnn hn1)
    have h3' : value BASE p.digits = n := by
      rw [h3]; exact Int.toNat_of_nonneg hnn
    exact ⟨p, s, h1, h3', h4, h5, h6, h7, h8⟩

/-- C19, at `BASE = 10`, on `a = 5` and `n = -1`, promoted to 4294967295. -/
theorem int_operand_wraps_witness :
    ∃ p s, bigint.ofUInt 10 64 (4294967296 + (-1 : Int)).toNat = some p ∧
      value 10 p.digits = 4294967296 + (-1 : Int) ∧
      bigint.add 10 64 ⟨[5]⟩ p = some s ∧
      bigint.add_bigint_int 10 64 ⟨[5]⟩ (-1) = some s ∧
      bigint.add_int_bigint 10 64 (-1) ⟨[5]⟩ = some s ∧
      bigint.sub_bigint_int 10 64 ⟨[5]⟩ (-1) = some (bigint.sub 10 ⟨[5]⟩ p) ∧
      (value 10 [5] < 4294967296 + (-1 : Int) →
        bigint.sub_bigint_int 10 64 ⟨[5]⟩ (-1) = some ⟨[0]⟩) :=
  (int_operand_wraps 10 (by decide) (by decide) ⟨[5]⟩ (by decide) (-1) (by decide)
    (by decide) 64 (by decide)).1 (by decide)

theorem addFits_zero {BASE : Int} (hB : 2 ≤ BASE) (hmax : BASE ≤ 2147483647) {a : bigint}
    (ha : InRange BASE a.digits) : AddFits a ⟨[0]⟩ := by
  intro i
  have hai := inRange_getD (by omega) ha i
  have hz : ([0] : List Int).getD i 0 = 0 := by
    cases i <;> simp
  unfold INT_MAX
  rw [hz]
  split <;> omega

/-- C20: for every radix `BASE >= 2` (an `int`) and all bigints `a`, `b` (any digit
lists), `a + b` and `b + a` return the same digit list, within
`max(len a, len b) + 32` iterations; and for every canonical `c`,
`c + bigint(0) == c` and `c - bigint(0) == c`. -/
theorem add_comm_and_zero (BASE : Int) (hB : 2 ≤ BASE) (hmax : BASE ≤ INT_MAX)
    (a b : bigint) (fuel : Nat) (hf : max a.digits.length b.digits.length + 32 ≤ fuel)
    (c : bigint) (hc : Canonical BASE c) (fuel2 : Nat) (hf2 : c.digits.length + 1 ≤ fuel2) :
    (∃ r, bigint.add BASE fuel a b = some r ∧ bigint.add BASE fuel b a = some r) ∧
      (∃ z, bigint.ofUInt BASE fuel2 0 = some z ∧ bigint.add BASE fuel2 c z = some c ∧
        bigint.sub BASE c z = c) := by
  unfold INT_MAX at hmax
  constructor
  · obtain ⟨r, hr⟩ := add_terminates hB a b hf
    exact ⟨r, hr, by rw [← add_comm_list, hr]⟩
  · have hzero : Canonical BASE ⟨[0]⟩ := canonical_zero (by omega)
    have hpos := canonical_length_pos hc
    have hmaxlen : max c.digits.length (bigint.mk [0]).digits.length = c.digits.length := by
      simp only [List.length_singleton]; omega
    have hne : 0 < max c.digits.length (bigint.mk [0]).digits.length := by
      rw [hmaxlen]; exact hpos
    have hf' : max c.digits.length (bigint.mk [0]).digits.length + 1 ≤ fuel2 := by
      rw [hmaxlen]; exact hf2
    obtain ⟨r, h1, h2, h3⟩ := add_spec hB hc.2.1 hzero.2.1 (addFits_zero hB hmax hc.2.1) hne hf'
    have hv0 : value BASE (bigint.mk [0]).digits = 0 := by simp [value]
    obtain ⟨h4, h5⟩ := sub_spec hB hmax hc hzero
    have hnn := value_nonneg (by omega : (0 : Int) < BASE) hc.2.1
    refine ⟨⟨[0]⟩, ofUInt_zero BASE fuel2, ?_, ?_⟩
    · rw [h1, canonical_ext hB h2 hc (by rw [h3, hv0, add_zero])]
    · have hsize : c.digits.length ≠ (bigint.mk [0]).digits.length ∨
          c.digits.length ≤ 4294967296 := by
        by_cases he : c.digits.length = (bigint.mk [0]).digits.length
        · right; rw [he]; simp
        · left; exact he
      exact canonical_ext hB h4 hc (by rw [h5 (by rw [hv0]; exact hnn) hsize, hv0, sub_zero])

/-- C20, at `BASE = 10`, on the non-canonical lists `[9, 9, 0]` and `[1]`, and on
the canonical `[0, 0, 0, 1]`. -/
theorem add_comm_and_zero_witness :
    (∃ r, bigint.add 10 35 ⟨[9, 9, 0]⟩ ⟨[1]⟩ = some r ∧
        bigint.add 10 35 ⟨[1]⟩ ⟨[9, 9, 0]⟩ = some r) ∧
      (∃ z, bigint.ofUInt 10 5 0 = some z ∧ bigint.add 10 5 ⟨[0, 0, 0, 1]⟩ z = some ⟨[0, 0, 0, 1]⟩ ∧
        bigint.sub 10 ⟨[0, 0, 0, 1]⟩ z = ⟨[0, 0, 0, 1]⟩) :=
  add_comm_and_zero 10 (by decide) (by decide) ⟨[9, 9, 0]⟩ ⟨[1]⟩ 35 (by decide)
    ⟨[0, 0, 0, 1]⟩ (by decide) 5 (by decide)

end lab_bigint
